import Mathlib

/-!
# Memory manager: extent list, fit strategies, allocate and free

A shallow embedding of `MemoryManager/MemoryManager.cpp` and `MemoryManager.h`.

Machine model (LP64, as on the POSIX hosts the code is written for):
`int` is 32-bit two's complement, `unsigned` is 32 bits, `size_t` is 64 bits,
`uint16_t` is 16 bits. Integers are `Int`/`Nat`, every conversion and every
wrapping operation is written out with an explicit modulus.

Pointers are natural numbers, `nullptr` is `0`. A `uint16_t *` argument is an
`Option (List Nat)`: `none` is the null pointer, `some arr` points at the array
`arr`.

Undefined behaviour (reading through a null pointer, reading or writing through
`end()`, reading past an array, integer division by zero, signed overflow, an
out-of-range floating to integer conversion) is the result `none` of the
operation that performs it, and so is an exception that nothing catches
(`bits.at` past the end of the vector).
-/

/-! ## Machine integers -/

/-- The constant `INT_MAX` of `<climits>`. -/
def INT_MAX : Int := 2147483647

/-- The null pointer. -/
def nullptr : Nat := 0

/-- Conversion of an integer value to `int` (32-bit two's complement wrap). -/
def toInt (x : Int) : Int := (x + 2147483648) % 4294967296 - 2147483648

/-- Conversion of an integer value to `unsigned` (modulo 2^32). -/
def toUnsigned (x : Int) : Nat := (x % 4294967296).toNat

/-- Conversion of an integer value to `size_t` (modulo 2^64). -/
def toSizeT (x : Int) : Nat := (x % 18446744073709551616).toNat

/-- Conversion of an integer value to `uint16_t` (modulo 2^16). -/
def toUInt16 (x : Int) : Nat := (x % 65536).toNat

/-- Conversion of a `size_t` value to `double`, as done by `ceil` on an integer
argument: round to nearest, ties to even, with a 53-bit significand. Values
below 2^53 are represented exactly. The result is the (integral) value of the
double. -/
def toDouble (n : Nat) : Nat :=
  if n < 9007199254740992 then n
  else
    let shift := Nat.log2 n - 52
    let q := n / 2 ^ shift
    let r := n % 2 ^ shift
    let half := 2 ^ (shift - 1)
    let q' := if r > half ∨ (r = half ∧ q % 2 = 1) then q + 1 else q
    q' * 2 ^ shift

/-! ## Data model -/

/-- The `struct Block` of `MemoryManager.h`: `int offset; size_t length; bool allocated`. -/
structure Block where
  offset : Int
  length : Nat
  allocated : Bool
  deriving DecidableEq, Repr

/-- The type `function<int(int, void *)>` of a placement strategy: the requested
word count, the hole list pointer, and the returned offset (`none` when the
call has undefined behaviour). -/
abbrev Allocator := Int → Option (List Nat) → Option Int

/-- The data members of `class MemoryManager`. -/
structure MemoryManager where
  memory : List Block
  wordSize : Nat
  allocator : Allocator
  sizeInWords : Nat
  ptr : Nat

/-! ## Fit strategies -/

/-- The loop `for (int i = 2; i < listPtr[0] * 2 + 1; i += 2)` of `bestFit`,
with `n` iterations left to run (the loop runs `listPtr[0]` times), the index
`i`, and the locals `minHoleThatFits` and `offset`. -/
def bestFitLoop (sizeInWords : Int) (listPtr : List Nat) :
    Nat → Nat → Int → Int → Option Int
  | 0, _, _, offset => some offset
  | n + 1, i, minHoleThatFits, offset =>
    match listPtr[i]? with
    | none => none
    | some len =>
      if (len : Int) < minHoleThatFits ∧ (len : Int) ≥ sizeInWords then
        match listPtr[i - 1]? with
        | none => none
        | some off => bestFitLoop sizeInWords listPtr n (i + 2) len off
      else bestFitLoop sizeInWords listPtr n (i + 2) minHoleThatFits offset

/-- The function `bestFit`: word offset of the hole selected by best fit, `-1`
if there is no fit. -/
def bestFit : Allocator := fun sizeInWords list =>
  match list with
  | none => none
  | some listPtr =>
    match listPtr[0]? with
    | none => none
    | some n => bestFitLoop sizeInWords listPtr n 2 INT_MAX (-1)

/-- The loop of `worstFit`, with `n` iterations left to run, the index `i`, and
the locals `maxHole` and `offset`. -/
def worstFitLoop (sizeInWords : Int) (listPtr : List Nat) :
    Nat → Nat → Int → Int → Option Int
  | 0, _, _, offset => some offset
  | n + 1, i, maxHole, offset =>
    match listPtr[i]? with
    | none => none
    | some len =>
      if (len : Int) > maxHole ∧ (len : Int) ≥ sizeInWords then
        match listPtr[i - 1]? with
        | none => none
        | some off => worstFitLoop sizeInWords listPtr n (i + 2) len off
      else worstFitLoop sizeInWords listPtr n (i + 2) maxHole offset

/-- The function `worstFit`: word offset of the hole selected by worst fit, `-1`
if there is no fit. -/
def worstFit : Allocator := fun sizeInWords list =>
  match list with
  | none => none
  | some listPtr =>
    match listPtr[0]? with
    | none => none
    | some n => worstFitLoop sizeInWords listPtr n 2 0 (-1)

/-! ## The manager -/

/-- The constructor `MemoryManager::MemoryManager(wordSize, allocator)`; the
member `sizeInWords` is value-initialised. -/
def MemoryManager.construct (wordSize : Nat) (allocator : Allocator) : MemoryManager :=
  { memory := [], wordSize := wordSize, allocator := allocator, sizeInWords := 0,
    ptr := nullptr }

/-- The method `MemoryManager::shutdown`. -/
def MemoryManager.shutdown (m : MemoryManager) : MemoryManager :=
  { m with memory := [], ptr := nullptr }

/-- The method `MemoryManager::initialize`; `arena` is the address that
`new char[wordSize * sizeInWords]` returns. -/
def MemoryManager.initialize (m : MemoryManager) (sizeInWords : Nat) (arena : Nat) :
    MemoryManager :=
  let m := m.shutdown
  if sizeInWords ≤ 65535 then
    { m with sizeInWords := sizeInWords, ptr := arena,
             memory := m.memory ++ [⟨0, sizeInWords, false⟩] }
  else m

/-- The method `MemoryManager::getList`: `none` is the null pointer, otherwise
the `uint16_t` array `[numberOfHoles, offset, length, ...]`. -/
def MemoryManager.getList (m : MemoryManager) : Option (List Nat) :=
  if m.memory.isEmpty then none
  else
    let holes := m.memory.filter (fun block => !block.allocated)
    some (toUInt16 holes.length ::
      holes.flatMap (fun block => [toUInt16 block.offset, toUInt16 block.length]))

/-- The method `MemoryManager::allocate`: the returned pointer and the manager
after the call. The quotient `sizeInBytes / wordSize` is an integer division;
`ceil` converts it to `double` and the result is converted back to `size_t`. -/
def MemoryManager.allocate (m : MemoryManager) (sizeInBytes : Nat) :
    Option (Nat × MemoryManager) :=
  if m.wordSize = 0 then none
  else if toDouble (sizeInBytes / m.wordSize) ≥ 18446744073709551616 then none
  else
    let sizeInWords := toDouble (sizeInBytes / m.wordSize)
    match m.allocator (toInt sizeInWords) m.getList with
    | none => none
    | some offsetToAllocate =>
      if offsetToAllocate = -1 then some (nullptr, m)
      else
        let i := m.memory.findIdx (fun block => block.offset == offsetToAllocate)
        match m.memory[i]? with
        | none => none
        | some hole =>
          let newBlock : Block := ⟨offsetToAllocate, sizeInWords, true⟩
          let it : Block :=
            { hole with offset := toInt (hole.offset + sizeInWords),
                        length := toSizeT (hole.length - sizeInWords) }
          some (m.ptr + toUnsigned (offsetToAllocate * m.wordSize),
            { m with memory := m.memory.take i ++ newBlock ::
                (if it.length ≤ 0 then [] else [it]) ++ m.memory.drop (i + 1) })

/-- The method `MemoryManager::free`. Reading `afterNewHole->allocated` when
`afterNewHole` is `end()` (the block found is the last one) and writing
`newHole->allocated` when `newHole` is `end()` (no block has the offset) are
undefined behaviour. -/
def MemoryManager.free (m : MemoryManager) (address : Nat) : Option MemoryManager :=
  if m.wordSize = 0 then none
  else
    let offsetToRemove := toInt (Int.tdiv ((address : Int) - m.ptr) m.wordSize)
    let i := m.memory.findIdx (fun block => block.offset == offsetToRemove)
    match m.memory[i]? with
    | none => none
    | some found =>
      let newHole : Block := { found with allocated := false }
      match m.memory[i + 1]? with
      | none => none
      | some afterNewHole =>
        let merged : Block :=
          if !afterNewHole.allocated then
            { newHole with length := toSizeT (newHole.length + afterNewHole.length) }
          else newHole
        let rest : List Block :=
          if !afterNewHole.allocated then m.memory.drop (i + 2) else m.memory.drop (i + 1)
        if i ≠ 0 then
          match m.memory[i - 1]? with
          | none => none
          | some beforeNewHole =>
            if !beforeNewHole.allocated then
              some { m with memory := m.memory.take (i - 1) ++
                { merged with offset := toInt (merged.offset - beforeNewHole.length),
                              length := toSizeT (merged.length + beforeNewHole.length) } ::
                rest }
            else some { m with memory := m.memory.take i ++ merged :: rest }
        else some { m with memory := merged :: rest }

/-- The method `MemoryManager::setAllocator`. -/
def MemoryManager.setAllocator (m : MemoryManager) (allocator : Allocator) : MemoryManager :=
  { m with allocator := allocator }

/-- The method `MemoryManager::getWordSize`. -/
def MemoryManager.getWordSize (m : MemoryManager) : Nat := m.wordSize

/-- The method `MemoryManager::getMemoryStart`. -/
def MemoryManager.getMemoryStart (m : MemoryManager) : Nat := m.ptr

/-- The method `MemoryManager::getMemoryLimit`, an `unsigned`. -/
def MemoryManager.getMemoryLimit (m : MemoryManager) : Nat :=
  toUnsigned (m.wordSize * m.sizeInWords)

/-! ## Hole-list snapshots and the reference strategies -/

/-- The `uint16_t` entries that a list of `(offset, length)` holes occupies
after the count. -/
def holePairs (holes : List (Nat × Nat)) : List Nat :=
  holes.flatMap (fun h => [h.1, h.2])

/-- A hole-list snapshot: the count followed by the `(offset, length)` pairs. -/
def holeSnapshot (holes : List (Nat × Nat)) : List Nat :=
  holes.length :: holePairs holes

/-- Reference definition of best fit: `-1` if no hole has length at least
`requested`, otherwise the offset of the first hole whose length is the minimum
among the holes with length at least `requested`. -/
def bestFitSpec (requested : Int) (holes : List (Nat × Nat)) : Int :=
  match ((holes.filter (fun h => requested ≤ (h.2 : Int))).map (fun h => h.2)).min? with
  | none => -1
  | some least =>
    match holes.find? (fun h => h.2 == least) with
    | none => -1
    | some h => (h.1 : Int)

/-- Reference definition of worst fit: `-1` if no hole has length at least
`requested`, otherwise the offset of the first hole whose length is the maximum
among the holes with length at least `requested`. -/
def worstFitSpec (requested : Int) (holes : List (Nat × Nat)) : Int :=
  match ((holes.filter (fun h => requested ≤ (h.2 : Int))).map (fun h => h.2)).max? with
  | none => -1
  | some most =>
    match holes.find? (fun h => h.2 == most) with
    | none => -1
    | some h => (h.1 : Int)

/-- The best-fit loop over the holes themselves rather than over array indices. -/
def bestFitScan (sizeInWords : Int) : List (Nat × Nat) → Int → Int → Int
  | [], _, offset => offset
  | h :: hs, minHoleThatFits, offset =>
    if (h.2 : Int) < minHoleThatFits ∧ (h.2 : Int) ≥ sizeInWords then
      bestFitScan sizeInWords hs h.2 h.1
    else bestFitScan sizeInWords hs minHoleThatFits offset

/-- The worst-fit loop over the holes themselves rather than over array indices. -/
def worstFitScan (sizeInWords : Int) : List (Nat × Nat) → Int → Int → Int
  | [], _, offset => offset
  | h :: hs, maxHole, offset =>
    if (h.2 : Int) > maxHole ∧ (h.2 : Int) ≥ sizeInWords then
      worstFitScan sizeInWords hs h.2 h.1
    else worstFitScan sizeInWords hs maxHole offset


/-- The holes as `getList` writes them: the free blocks in list order, offset and
length converted to `uint16_t`. -/
def snapshotHoles (memory : List Block) : List (Nat × Nat) :=
  (memory.filter (fun block => !block.allocated)).map
    (fun block => (toUInt16 block.offset, toUInt16 block.length))

/-- Reference result of freeing the block `b` that stands between the blocks
`pre` and the blocks `next :: post`: `b` is marked free, absorbs `next` if
`next` is free, and is absorbed with the last block of `pre` if there is one
and it is free; the merged hole starts at the smallest absorbed offset and its
length is the sum of the absorbed lengths; every other block is unchanged. -/
def coalesce (pre : List Block) (b next : Block) (post : List Block) : List Block :=
  let hole : Block :=
    if next.allocated then ⟨b.offset, b.length, false⟩
    else ⟨b.offset, b.length + next.length, false⟩
  let rest : List Block := if next.allocated then next :: post else post
  match pre.getLast? with
  | none => hole :: rest
  | some prev =>
    if prev.allocated then pre ++ hole :: rest
    else pre.dropLast ++ ⟨prev.offset, prev.length + hole.length, false⟩ :: rest

/-! ## Data-model invariants -/

/-- The blocks lie end to end from word `start` to word `stop`: each block's
offset is where the previous one ends. -/
def coversFrom : Int → List Block → Int → Prop
  | start, [], stop => start = stop
  | start, b :: bs, stop => b.offset = start ∧ coversFrom (start + (b.length : Int)) bs stop

instance decidableCoversFrom :
    (start : Int) → (memory : List Block) → (stop : Int) →
      Decidable (coversFrom start memory stop)
  | start, [], stop => inferInstanceAs (Decidable (start = stop))
  | start, b :: bs, stop =>
    have := decidableCoversFrom (start + (b.length : Int)) bs stop
    inferInstanceAs (Decidable (b.offset = start ∧ coversFrom (start + (b.length : Int)) bs stop))

/-- Coverage: there is a first block and its offset is 0, each block's offset
equals the previous block's offset plus length, and the last block's offset
plus length equals the capacity. -/
def Coverage (capacity : Nat) (memory : List Block) : Prop :=
  memory ≠ [] ∧ coversFrom 0 memory capacity

instance (capacity : Nat) (memory : List Block) : Decidable (Coverage capacity memory) :=
  inferInstanceAs (Decidable (_ ∧ _))

/-- No two consecutive blocks are both free. -/
def NoAdjacentHoles : List Block → Prop
  | a :: b :: rest =>
    ¬ (a.allocated = false ∧ b.allocated = false) ∧ NoAdjacentHoles (b :: rest)
  | _ => True

instance decidableNoAdjacentHoles : (memory : List Block) → Decidable (NoAdjacentHoles memory)
  | [] => inferInstanceAs (Decidable True)
  | [_] => inferInstanceAs (Decidable True)
  | a :: b :: rest =>
    have := decidableNoAdjacentHoles (b :: rest)
    inferInstanceAs (Decidable
      (¬ (a.allocated = false ∧ b.allocated = false) ∧ NoAdjacentHoles (b :: rest)))

/-- The data-model invariants of a block list over an arena of `capacity`
words: coverage, no two adjacent holes, every length positive, and the capacity
within the 65535 words that `initialize` accepts. -/
def WellFormed (capacity : Nat) (memory : List Block) : Prop :=
  Coverage capacity memory ∧ NoAdjacentHoles memory ∧
  (∀ b ∈ memory, 0 < b.length) ∧ capacity ≤ 65535

instance (capacity : Nat) (memory : List Block) : Decidable (WellFormed capacity memory) :=
  inferInstanceAs (Decidable (_ ∧ _ ∧ _ ∧ _))

/-! ## Managers used as concrete inputs -/

/-- A manager with word size 1 and best fit, initialised with 20 words at
address 4096. -/
def manager20 : MemoryManager :=
  MemoryManager.initialize (MemoryManager.construct 1 bestFit) 20 4096

/-- A manager with word size 4 and best fit, initialised with 20 words at
address 4096. -/
def manager20w4 : MemoryManager :=
  MemoryManager.initialize (MemoryManager.construct 4 bestFit) 20 4096

/-- A manager with word size 2^31 and best fit, initialised with 3 words (an
arena of 6 GiB) at address 4096. -/
def managerWide : MemoryManager :=
  MemoryManager.initialize (MemoryManager.construct 2147483648 bestFit) 3 4096

/-- The manager `manager20` after `allocate(4)`. -/
def manager20after4 : MemoryManager :=
  { manager20 with memory := [⟨0, 4, true⟩, ⟨4, 16, false⟩] }

/-- The pointer returned by `allocate` and the block list after it. -/
def outcome (r : Option (Nat × MemoryManager)) : Option (Nat × List Block) :=
  r.map (fun p => (p.1, p.2.memory))

/-! ## Further reference notions -/

/-- The offsets are strictly ascending along the list. -/
def StrictlyAscending : List Block → Prop
  | a :: b :: rest => a.offset < b.offset ∧ StrictlyAscending (b :: rest)
  | _ => True

instance decidableStrictlyAscending :
    (memory : List Block) → Decidable (StrictlyAscending memory)
  | [] => inferInstanceAs (Decidable True)
  | [_] => inferInstanceAs (Decidable True)
  | a :: b :: rest =>
    have := decidableStrictlyAscending (b :: rest)
    inferInstanceAs (Decidable (a.offset < b.offset ∧ StrictlyAscending (b :: rest)))

/-- The free blocks fit the 16-bit fields of the hole list: there are fewer than
65536 of them, and the offset and the length of each are `uint16_t` values. -/
def FitsHoleList (memory : List Block) : Prop :=
  (memory.filter (fun block => !block.allocated)).length < 65536 ∧
  ∀ b ∈ memory, b.allocated = false →
    0 ≤ b.offset ∧ b.offset < 65536 ∧ b.length < 65536

instance (memory : List Block) : Decidable (FitsHoleList memory) :=
  inferInstanceAs (Decidable (_ ∧ _))

/-- Reference hole list: the count of the free blocks, then the offset and the
length of each free block, in list order. -/
def holeListSpec (memory : List Block) : List Int :=
  ((memory.filter (fun block => !block.allocated)).length : Int) ::
    (memory.filter (fun block => !block.allocated)).flatMap
      (fun block => [block.offset, (block.length : Int)])

/-- The manager `manager20` with the block list `(0,4,free)`, `(4,16,allocated)`,
as after `a = allocate(4)`, `b = allocate(16)`, `free(a)`. -/
def manager20hole : MemoryManager :=
  { manager20 with memory := [⟨0, 4, false⟩, ⟨4, 16, true⟩] }

/-- The manager `manager20` with a single free block of 70000 words. -/
def managerLong : MemoryManager :=
  { manager20 with memory := [⟨0, 70000, false⟩] }

/-! ## The text dump -/

/-- The loop `for (int i = 1; i < list[0] * 2 + 1; i += 2)` of `dumpMemoryMap`,
with `n` iterations left to run (the loop runs `list[0]` times), the index `i`
and the text `output` built so far. -/
def dumpLoop (list : List Nat) : Nat → Nat → String → Option String
  | 0, _, output => some output
  | n + 1, i, output =>
    match list[i]?, list[i + 1]?, list[0]? with
    | some start, some len, some count =>
      if i + 1 = count * 2 then
        dumpLoop list n (i + 2) (output ++ "[" ++ toString start ++ ", " ++ toString len ++ "]")
      else
        dumpLoop list n (i + 2)
          (output ++ "[" ++ toString start ++ ", " ++ toString len ++ "] - ")
    | _, _, _ => none

/-- The method `MemoryManager::dumpMemoryMap`, up to the string `output` that it
hands to `write`; the POSIX calls `open`, `write` and `close` and the `int`
they decide are left out. -/
def MemoryManager.dumpMemoryMap (m : MemoryManager) : Option String :=
  match m.getList with
  | none => some ""
  | some list =>
    match list[0]? with
    | none => none
    | some count => dumpLoop list count 1 ""

/-- Reference rendering of one hole: `[offset, length]`, both in decimal. -/
def renderHole (offset : Int) (length : Nat) : String :=
  "[" ++ toString offset ++ ", " ++ toString length ++ "]"

/-- Reference joining: the entries separated by `" - "`, nothing after the last
one, the empty string for no entry. -/
def joinWithDash : List String → String
  | [] => ""
  | [a] => a
  | a :: b :: rest => a ++ " - " ++ joinWithDash (b :: rest)

/-- Reference text dump: the free blocks in ascending offset order (sorted by
offset; blocks of equal offset keep their list order), each rendered by
`renderHole`, joined by `joinWithDash`. -/
def dumpSpec (memory : List Block) : String :=
  joinWithDash (((memory.filter (fun block => !block.allocated)).insertionSort
    (fun a b : Block => a.offset ≤ b.offset)).map
      (fun block => renderHole block.offset block.length))

/-- The manager `manager20` with the block list `(0,10,free)`,
`(10,2,allocated)`, `(12,6,free)`. -/
def manager18 : MemoryManager :=
  { manager20 with memory := [⟨0, 10, false⟩, ⟨10, 2, true⟩, ⟨12, 6, false⟩] }

/-- The manager `manager20` after the calls `allocate(0)`, `b = allocate(8)`,
`free(b)`, `allocate(3)`; `none` if one of the calls is undefined. -/
def manager20shuffled : Option MemoryManager :=
  (manager20.allocate 0).bind fun zero =>
  (zero.2.allocate 8).bind fun b =>
  (b.2.free b.1).bind fun freed =>
  (freed.allocate 3).map fun last => last.2

/-! ## The bitmap -/

/-- Conversion of a `size_t` value to `float`, as in `bits.size() / 8.0f`: round
to nearest, ties to even, with a 24-bit significand. Values below 2^24 are
represented exactly. The result is the (integral) value of the float. -/
def toFloat (n : Nat) : Nat :=
  if n < 16777216 then n
  else
    let shift := Nat.log2 n - 23
    let q := n / 2 ^ shift
    let r := n % 2 ^ shift
    let half := 2 ^ (shift - 1)
    let q' := if r > half ∨ (r = half ∧ q % 2 = 1) then q + 1 else q
    q' * 2 ^ shift

/-- The vector `bits` of `getBitmap` before it is reversed: one character per
word of every block in list order, `'1'` (here `true`) for an allocated block
and `'0'` for a free one, then `extraSpace` characters `'0'`. -/
def MemoryManager.bitmapBits (m : MemoryManager) : List Bool :=
  m.memory.flatMap (fun block => List.replicate block.length block.allocated) ++
    List.replicate (if m.sizeInWords % 8 ≠ 0 then 8 - m.sizeInWords % 8 else 0) false

/-- The call `stoi(byte, nullptr, 2)` on a string of `'0'` and `'1'`: the first
character is the most significant bit. -/
def stoiBinary (byte : List Bool) : Nat :=
  byte.foldl (fun acc c => 2 * acc + (if c then 1 else 0)) 0

/-- The digits of the text that `ss << hex << bitMapSize` writes, most
significant first, as digit values (an `int` has at most eight of them). -/
def hexDigitsCore : Nat → Nat → List Nat → List Nat
  | 0, _, acc => acc
  | fuel + 1, v, acc =>
    if v / 16 = 0 then (v % 16) :: acc
    else hexDigitsCore fuel (v / 16) ((v % 16) :: acc)

/-- The string `hexBitMapSize` after it is padded with zeros to four digits. -/
def hexBitMapSize (bitMapSize : Nat) : List Nat :=
  let text := hexDigitsCore 8 bitMapSize []
  if text.length = 1 then [0, 0, 0] ++ text
  else if text.length = 2 then [0, 0] ++ text
  else if text.length = 3 then [0] ++ text
  else text

/-- The call `stoi(text, nullptr, 16)` on hexadecimal digits. -/
def stoiHex (text : List Nat) : Nat :=
  text.foldl (fun acc d => 16 * acc + d) 0

/-- The method `MemoryManager::getBitmap`: the `uint8_t` array it returns. The
loops `for (int i = 0; i < block.length; i++)` overflow `i` for a block longer
than `INT_MAX`; `ceil(bits.size() / 8.0f)`, the least integer not below an
eighth of the float, is `(toFloat size + 7) / 8` and cannot be converted to
`int` from 2^31 on; `bits.at` throws past the end of `bits`. All three are the
result `none`. The bytes stored are below 256, so that their conversion to
`uint8_t` changes nothing. -/
def MemoryManager.getBitmap (m : MemoryManager) : Option (List Nat) :=
  if m.memory.any (fun block => decide (2147483647 < block.length)) then none
  else
    let bits := m.bitmapBits.reverse
    if (toFloat bits.length + 7) / 8 ≥ 2147483648 then none
    else
      let bitMapSize := (toFloat bits.length + 7) / 8
      match (List.range bitMapSize).mapM
          (fun i => (List.range 8).mapM (fun j => bits[j + 8 * i]?)) with
      | none => none
      | some bytes =>
        let bytesInDecimal := (bytes.map stoiBinary).reverse
        let lowByte := stoiHex (((hexBitMapSize bitMapSize).drop 2).take 2)
        let highByte := stoiHex ((hexBitMapSize bitMapSize).take 2)
        some (lowByte :: highByte :: bytesInDecimal)

/-- Bit `w mod 8` of data byte `w / 8`, bit 0 being the least significant. -/
def bitOf (data : List Nat) (w : Nat) : Option Bool :=
  data[w / 8]?.map (fun byte => byte.testBit (w % 8))

/-- The word `w` lies in the block `b`. -/
def Block.contains (b : Block) (w : Nat) : Prop :=
  b.offset ≤ (w : Int) ∧ (w : Int) < b.offset + (b.length : Int)

/-- A manager with word size 1 and best fit, initialised with 16 words at
address 4096. -/
def manager16 : MemoryManager :=
  MemoryManager.initialize (MemoryManager.construct 1 bestFit) 16 4096

/-- A manager with word size 1 and best fit, initialised with 10 words at
address 4096. -/
def manager10 : MemoryManager :=
  MemoryManager.initialize (MemoryManager.construct 1 bestFit) 10 4096

/-- The manager `manager16` after `allocate(8)`: the first 8 of its 16 words are
allocated. -/
def manager16half : MemoryManager :=
  { manager16 with memory := [⟨0, 8, true⟩, ⟨8, 8, false⟩] }

/-- The most significant bit of the first data byte of a bitmap, the byte after
the two bytes of the size field. -/
def firstDataByteMsb (bitmap : List Nat) : Option Bool :=
  (bitmap.drop 2).head?.map (fun byte => byte.testBit 7)

/-- The most significant bit of the last data byte of a bitmap. -/
def lastDataByteMsb (bitmap : List Nat) : Option Bool :=
  (bitmap.drop 2).getLast?.map (fun byte => byte.testBit 7)

/-! ## The fit strategies against their reference definitions -/

theorem bestFitLoop_eq_scan (sizeInWords : Int) (hs : List (Nat × Nat)) (tail : List Nat) :
    ∀ (pre : List Nat) (minHoleThatFits offset : Int),
      bestFitLoop sizeInWords (pre ++ (holePairs hs ++ tail)) hs.length (pre.length + 1)
        minHoleThatFits offset
      = some (bestFitScan sizeInWords hs minHoleThatFits offset) := by
  induction hs with
  | nil => intro pre m o; simp [bestFitLoop, bestFitScan]
  | cons h hs ih =>
    intro pre m o
    have hstep : pre ++ (holePairs (h :: hs) ++ tail)
        = (pre ++ [h.1, h.2]) ++ (holePairs hs ++ tail) := by
      simp [holePairs]
    have hlen : pre.length + 1 + 2 = (pre ++ [h.1, h.2]).length + 1 := by simp
    have h1 : (pre ++ (holePairs (h :: hs) ++ tail))[pre.length + 1]? = some h.2 := by
      rw [List.getElem?_append_right (Nat.le_add_right _ _)]; simp [holePairs]
    have h0 : (pre ++ (holePairs (h :: hs) ++ tail))[pre.length]? = some h.1 := by
      rw [List.getElem?_append_right (Nat.le_refl _)]; simp [holePairs]
    simp only [List.length_cons, bestFitLoop, h1, h0, Nat.add_sub_cancel, bestFitScan]
    split
    · rw [hstep, hlen]; exact ih _ _ _
    · rw [hstep, hlen]; exact ih _ _ _

theorem worstFitLoop_eq_scan (sizeInWords : Int) (hs : List (Nat × Nat)) (tail : List Nat) :
    ∀ (pre : List Nat) (maxHole offset : Int),
      worstFitLoop sizeInWords (pre ++ (holePairs hs ++ tail)) hs.length (pre.length + 1)
        maxHole offset
      = some (worstFitScan sizeInWords hs maxHole offset) := by
  induction hs with
  | nil => intro pre m o; simp [worstFitLoop, worstFitScan]
  | cons h hs ih =>
    intro pre m o
    have hstep : pre ++ (holePairs (h :: hs) ++ tail)
        = (pre ++ [h.1, h.2]) ++ (holePairs hs ++ tail) := by
      simp [holePairs]
    have hlen : pre.length + 1 + 2 = (pre ++ [h.1, h.2]).length + 1 := by simp
    have h1 : (pre ++ (holePairs (h :: hs) ++ tail))[pre.length + 1]? = some h.2 := by
      rw [List.getElem?_append_right (Nat.le_add_right _ _)]; simp [holePairs]
    have h0 : (pre ++ (holePairs (h :: hs) ++ tail))[pre.length]? = some h.1 := by
      rw [List.getElem?_append_right (Nat.le_refl _)]; simp [holePairs]
    simp only [List.length_cons, worstFitLoop, h1, h0, Nat.add_sub_cancel, worstFitScan]
    split
    · rw [hstep, hlen]; exact ih _ _ _
    · rw [hstep, hlen]; exact ih _ _ _

theorem bestFit_snapshot (sizeInWords : Int) (holes : List (Nat × Nat)) :
    bestFit sizeInWords (some (holeSnapshot holes))
      = some (bestFitScan sizeInWords holes INT_MAX (-1)) := by
  have := bestFitLoop_eq_scan sizeInWords holes [] [holes.length] INT_MAX (-1)
  simpa [bestFit, holeSnapshot] using this

theorem worstFit_snapshot (sizeInWords : Int) (holes : List (Nat × Nat)) :
    worstFit sizeInWords (some (holeSnapshot holes))
      = some (worstFitScan sizeInWords holes 0 (-1)) := by
  have := worstFitLoop_eq_scan sizeInWords holes [] [holes.length] 0 (-1)
  simpa [worstFit, holeSnapshot] using this

theorem bestFitScan_none (sizeInWords : Int) (hs : List (Nat × Nat)) :
    ∀ (minHoleThatFits offset : Int),
      (∀ h ∈ hs, ¬ ((h.2 : Int) < minHoleThatFits ∧ sizeInWords ≤ (h.2 : Int))) →
      bestFitScan sizeInWords hs minHoleThatFits offset = offset := by
  induction hs with
  | nil => intro m o _; rfl
  | cons x xs ih =>
    intro m o hno
    have hx := hno x (List.mem_cons_self _ _)
    simp only [bestFitScan, ge_iff_le, hx, if_false]
    exact ih m o (fun h hh => hno h (List.mem_cons_of_mem _ hh))

theorem bestFitScan_first_min (sizeInWords : Int) (pre : List (Nat × Nat)) :
    ∀ (h : Nat × Nat) (post : List (Nat × Nat)) (minHoleThatFits offset : Int),
      sizeInWords ≤ (h.2 : Int) → (h.2 : Int) < minHoleThatFits →
      (∀ x ∈ pre ++ h :: post, sizeInWords ≤ (x.2 : Int) → h.2 ≤ x.2) →
      (∀ x ∈ pre, x.2 ≠ h.2) →
      bestFitScan sizeInWords (pre ++ h :: post) minHoleThatFits offset = (h.1 : Int) := by
  induction pre with
  | nil =>
    intro h post m o hq hlt hmin _
    simp only [List.nil_append, bestFitScan, ge_iff_le, hq, hlt, and_self, if_true]
    apply bestFitScan_none
    intro x hx hc
    have := hmin x (by simp [hx]) hc.2
    omega
  | cons y pre ih =>
    intro h post m o hq hlt hmin hne
    have hy : y.2 ≠ h.2 := hne y (List.mem_cons_self _ _)
    have hmin' : ∀ x ∈ pre ++ h :: post, sizeInWords ≤ (x.2 : Int) → h.2 ≤ x.2 :=
      fun x hx => hmin x (by simp only [List.cons_append]; exact List.mem_cons_of_mem _ hx)
    have hne' : ∀ x ∈ pre, x.2 ≠ h.2 := fun x hx => hne x (List.mem_cons_of_mem _ hx)
    simp only [List.cons_append, bestFitScan, ge_iff_le]
    split
    · next hc =>
      have := hmin y (by simp) hc.2
      exact ih h post _ _ hq (by omega) hmin' hne'
    · exact ih h post _ _ hq hlt hmin' hne'

theorem worstFitScan_none (sizeInWords : Int) (hs : List (Nat × Nat)) :
    ∀ (maxHole offset : Int),
      (∀ h ∈ hs, ¬ ((h.2 : Int) > maxHole ∧ sizeInWords ≤ (h.2 : Int))) →
      worstFitScan sizeInWords hs maxHole offset = offset := by
  induction hs with
  | nil => intro m o _; rfl
  | cons x xs ih =>
    intro m o hno
    have hx := hno x (List.mem_cons_self _ _)
    simp only [worstFitScan, ge_iff_le, hx, if_false]
    exact ih m o (fun h hh => hno h (List.mem_cons_of_mem _ hh))

theorem worstFitScan_first_max (sizeInWords : Int) (pre : List (Nat × Nat)) :
    ∀ (h : Nat × Nat) (post : List (Nat × Nat)) (maxHole offset : Int),
      sizeInWords ≤ (h.2 : Int) → (h.2 : Int) > maxHole →
      (∀ x ∈ pre ++ h :: post, sizeInWords ≤ (x.2 : Int) → x.2 ≤ h.2) →
      (∀ x ∈ pre, x.2 ≠ h.2) →
      worstFitScan sizeInWords (pre ++ h :: post) maxHole offset = (h.1 : Int) := by
  induction pre with
  | nil =>
    intro h post m o hq hlt hmax _
    simp only [List.nil_append, worstFitScan, ge_iff_le, hq, hlt, and_self, if_true]
    apply worstFitScan_none
    intro x hx hc
    have := hmax x (by simp [hx]) hc.2
    omega
  | cons y pre ih =>
    intro h post m o hq hlt hmax hne
    have hy : y.2 ≠ h.2 := hne y (List.mem_cons_self _ _)
    have hmax' : ∀ x ∈ pre ++ h :: post, sizeInWords ≤ (x.2 : Int) → x.2 ≤ h.2 :=
      fun x hx => hmax x (by simp only [List.cons_append]; exact List.mem_cons_of_mem _ hx)
    have hne' : ∀ x ∈ pre, x.2 ≠ h.2 := fun x hx => hne x (List.mem_cons_of_mem _ hx)
    simp only [List.cons_append, worstFitScan, ge_iff_le]
    split
    · next hc =>
      have := hmax y (by simp) hc.2
      exact ih h post _ _ hq (by omega) hmax' hne'
    · exact ih h post _ _ hq hlt hmax' hne'

theorem bestFitScan_eq_spec (requested : Int) (holes : List (Nat × Nat))
    (hlen : ∀ h ∈ holes, h.2 < 65536) :
    bestFitScan requested holes INT_MAX (-1) = bestFitSpec requested holes := by
  unfold bestFitSpec
  cases hmin : ((holes.filter (fun h => requested ≤ (h.2 : Int))).map (fun h => h.2)).min? with
  | none =>
    simp only [List.min?_eq_none_iff, List.map_eq_nil_iff, List.filter_eq_nil_iff,
      decide_eq_true_eq] at hmin
    exact bestFitScan_none _ _ _ _ (fun h hh hc => hmin h hh hc.2)
  | some least =>
    simp only []
    rw [List.min?_eq_some_iff'] at hmin
    obtain ⟨hmem, hle⟩ := hmin
    simp only [List.mem_map, List.mem_filter, decide_eq_true_eq] at hmem hle
    obtain ⟨w, ⟨hw, hwq⟩, rfl⟩ := hmem
    cases hfind : holes.find? (fun h => h.2 == w.2) with
    | none =>
      rw [List.find?_eq_none] at hfind
      exact absurd (by simp) (hfind w hw)
    | some h =>
      rw [List.find?_eq_some] at hfind
      obtain ⟨hp, pre, post, rfl, hpre⟩ := hfind
      have hp' : h.2 = w.2 := by simpa using hp
      simp only
      apply bestFitScan_first_min
      · rw [hp']; exact hwq
      · have := hlen h (by simp)
        simp only [INT_MAX]; omega
      · intro x hx hxq
        rw [hp']
        exact hle x.2 ⟨x, ⟨hx, hxq⟩, rfl⟩
      · intro x hx
        have := hpre x hx
        simpa [hp'] using this

theorem worstFitScan_eq_spec (requested : Int) (holes : List (Nat × Nat))
    (hpos : ∀ h ∈ holes, 1 ≤ h.2) :
    worstFitScan requested holes 0 (-1) = worstFitSpec requested holes := by
  unfold worstFitSpec
  cases hmax : ((holes.filter (fun h => requested ≤ (h.2 : Int))).map (fun h => h.2)).max? with
  | none =>
    simp only [List.max?_eq_none_iff, List.map_eq_nil_iff, List.filter_eq_nil_iff,
      decide_eq_true_eq] at hmax
    exact worstFitScan_none _ _ _ _ (fun h hh hc => hmax h hh hc.2)
  | some most =>
    simp only []
    rw [List.max?_eq_some_iff'] at hmax
    obtain ⟨hmem, hle⟩ := hmax
    simp only [List.mem_map, List.mem_filter, decide_eq_true_eq] at hmem hle
    obtain ⟨w, ⟨hw, hwq⟩, rfl⟩ := hmem
    cases hfind : holes.find? (fun h => h.2 == w.2) with
    | none =>
      rw [List.find?_eq_none] at hfind
      exact absurd (by simp) (hfind w hw)
    | some h =>
      rw [List.find?_eq_some] at hfind
      obtain ⟨hp, pre, post, rfl, hpre⟩ := hfind
      have hp' : h.2 = w.2 := by simpa using hp
      simp only
      apply worstFitScan_first_max
      · rw [hp']; exact hwq
      · have := hpos h (by simp)
        omega
      · intro x hx hxq
        rw [hp']
        exact hle x.2 ⟨x, ⟨hx, hxq⟩, rfl⟩
      · intro x hx
        have := hpre x hx
        simpa [hp'] using this

theorem mem_holeSnapshot_length {holes : List (Nat × Nat)} {h : Nat × Nat}
    (hh : h ∈ holes) : h.2 ∈ holeSnapshot holes := by
  simp only [holeSnapshot, holePairs, List.mem_cons, List.mem_flatMap]
  exact Or.inr ⟨h, hh, by simp⟩

/-- C8. For every requested word count and every hole-list snapshot (the count
followed by the `(offset, length)` pairs, all of them `uint16_t` values),
`bestFit` returns what the reference definition gives: `-1` if no hole has
length at least the request, otherwise the offset of the first hole whose
length is the minimum among the holes with length at least the request. -/
theorem bestFit_eq_bestFitSpec (requested : Int) (holes : List (Nat × Nat))
    (huint16 : ∀ x ∈ holeSnapshot holes, x < 65536) :
    bestFit requested (some (holeSnapshot holes)) = some (bestFitSpec requested holes) := by
  rw [bestFit_snapshot, bestFitScan_eq_spec requested holes
    (fun h hh => huint16 h.2 (mem_holeSnapshot_length hh))]

/-- Witness of C8: holes `[(0,4),(10,4),(20,10)]`, request 4, result 0. -/
theorem bestFit_eq_bestFitSpec_witness :
    bestFit 4 (some [3, 0, 4, 10, 4, 20, 10]) = some 0 :=
  bestFit_eq_bestFitSpec 4 [(0, 4), (10, 4), (20, 10)] (by decide)

/-- C9. For every requested word count that is not negative and every hole-list
snapshot whose holes all have length at least 1, `worstFit` returns what the
reference definition gives: `-1` if no hole has length at least the request,
otherwise the offset of the first hole whose length is the maximum among the
holes with length at least the request. -/
theorem worstFit_eq_worstFitSpec (requested : Int) (holes : List (Nat × Nat))
    (_hreq : 0 ≤ requested)
    (_huint16 : ∀ x ∈ holeSnapshot holes, x < 65536)
    (hpos : ∀ h ∈ holes, 1 ≤ h.2) :
    worstFit requested (some (holeSnapshot holes)) = some (worstFitSpec requested holes) := by
  rw [worstFit_snapshot, worstFitScan_eq_spec requested holes hpos]

/-- Witness of C9: holes `[(0,4),(10,4),(20,10)]`, request 3, result 20. -/
theorem worstFit_eq_worstFitSpec_witness :
    worstFit 3 (some [3, 0, 4, 10, 4, 20, 10]) = some 20 :=
  worstFit_eq_worstFitSpec 3 [(0, 4), (10, 4), (20, 10)] (by decide) (by decide) (by decide)

/-! ## Behaviour at concrete inputs -/

/-- C1 (failing input). With word size 1, after `initialize(20)`, `allocate(0)`
and `allocate(4)` the block list is `(0,4,allocated)`,
`(4, 2^64 - 4, allocated)`, `(0,20,free)`, which does not partition `[0, 20)`:
the zero-word request is not rejected, its zero-length block is then taken for
the hole at the same offset, and its length wraps around. -/
theorem coverage_lost_after_zero_byte_request :
    outcome ((manager20.allocate 0).bind (fun r => r.2.allocate 4))
      = some (4096, [⟨0, 4, true⟩, ⟨4, 18446744073709551612, true⟩, ⟨0, 20, false⟩])
    ∧ ¬ Coverage 20 [⟨0, 4, true⟩, ⟨4, 18446744073709551612, true⟩, ⟨0, 20, false⟩] := by
  decide

/-- C2 (failing input). With word size 2^31 and three words, after
`allocate(2^32)` took words 0 and 1, `allocate(2^31)` is given the hole at
offset 2 and splits the list as expected, but the returned address is the arena
base itself, not base + 2 * 2^31: the product `offsetToAllocate * wordSize` is
computed in 32 bits. -/
theorem allocate_address_wraps_at_32_bits :
    outcome (managerWide.allocate 4294967296) = some (4096, [⟨0, 2, true⟩, ⟨2, 1, false⟩])
    ∧ outcome ((managerWide.allocate 4294967296).bind (fun r => r.2.allocate 2147483648))
        = some (4096, [⟨0, 2, true⟩, ⟨2, 1, true⟩])
    ∧ 4096 ≠ 4096 + 2 * 2147483648 := by
  decide

/-- With word size 1, `allocate(2^32 + 4)` hands the word count to `bestFit` as
the `int` 4, gets the hole `(0,20)`, and creates a block of `2^32 + 4` words. -/
theorem allocate_block_longer_than_asked_of_strategy :
    toInt 4294967300 = 4
    ∧ outcome (manager20.allocate 4294967300)
        = some (4096, [⟨0, 4294967300, true⟩, ⟨4, 18446744069414584336, false⟩]) := by
  decide

/-- C3 (failing input). With word size 4, `allocate(5)` creates a block of one
word (4 bytes), not of `ceil(5 / 4) = 2` words: the quotient is an integer
division, which `ceil` leaves as it is. -/
theorem allocate_rounds_down :
    outcome (manager20w4.allocate 5) = some (4096, [⟨0, 1, true⟩, ⟨1, 19, false⟩])
    ∧ 1 * 4 < 5 := by
  decide

/-- C4 (failing input). With the arena fully allocated as `(0,4)`, `(4,16)`,
freeing the last block `(4,16)` reads `afterNewHole->allocated` through `end()`:
the call has no defined result. -/
theorem free_of_last_block_undefined :
    outcome ((manager20.allocate 4).bind (fun r => r.2.allocate 16))
      = some (4100, [⟨0, 4, true⟩, ⟨4, 16, true⟩])
    ∧ ((((manager20.allocate 4).bind (fun r => r.2.allocate 16)).bind
        (fun r => r.2.free 4100)).map (fun m => m.memory)) = none := by
  decide

/-- C5 (failing input). After `initialize(20)`, `a = allocate(4)`,
`b = allocate(16)` and `free(a)` the list is `(0,4,free)`, `(4,16,allocated)`,
with no two adjacent holes; `free(b)` frees the last block and has no defined
result. -/
theorem free_after_hole_of_last_block_undefined :
    (((manager20.allocate 4).bind (fun r => r.2.allocate 16)).bind
        (fun r => r.2.free 4096)).map (fun m => m.memory)
      = some [⟨0, 4, false⟩, ⟨4, 16, true⟩]
    ∧ NoAdjacentHoles [⟨0, 4, false⟩, ⟨4, 16, true⟩]
    ∧ ((((manager20.allocate 4).bind (fun r => r.2.allocate 16)).bind
        (fun r => r.2.free 4096)).bind (fun m => m.free 4100)).map (fun m => m.memory)
      = none := by
  decide

/-- C6 (failing input). After `initialize(20)`, `allocate(20)` returns the arena
base and leaves the single block `(0,20,allocated)`; freeing that address at
once has no defined result, so the list `(0,20,free)` is not restored. -/
theorem allocate_then_free_of_whole_arena_undefined :
    outcome (manager20.allocate 20) = some (4096, [⟨0, 20, true⟩])
    ∧ ((manager20.allocate 20).bind (fun r => r.2.free r.1)).map (fun m => m.memory) = none := by
  decide

/-- C7 (failing input). With word size 1 and a single hole of 20 words, a request
of 2^31 words reaches `bestFit` and `worstFit` as the `int` -2^31; both return
offset 0, and `allocate` returns the arena base and rewrites the list. -/
theorem oversized_request_is_not_refused :
    bestFit (toInt 2147483648) manager20.getList = some 0
    ∧ worstFit (toInt 2147483648) manager20.getList = some 0
    ∧ outcome (manager20.allocate 2147483648)
        = some (4096, [⟨0, 2147483648, true⟩, ⟨-2147483648, 18446744071562067988, false⟩])
    ∧ outcome ((manager20.setAllocator worstFit).allocate 2147483648)
        = some (4096, [⟨0, 2147483648, true⟩, ⟨-2147483648, 18446744071562067988, false⟩]) := by
  decide

/-- C10 (failing input). With word size 1, `allocate(0)` on the freshly
initialised arena returns the arena base, not null, and inserts a zero-length
allocated block; on a manager that was never initialised `allocate` hands the
null hole list to `bestFit`, which reads through it. -/
theorem zero_byte_request_is_not_refused :
    manager20.memory = [⟨0, 20, false⟩]
    ∧ outcome (manager20.allocate 0) = some (4096, [⟨0, 0, true⟩, ⟨0, 20, false⟩])
    ∧ outcome ((MemoryManager.construct 1 bestFit).allocate 5) = none := by
  decide

/-! ## Conversions that are exact in range -/

theorem toDouble_of_lt {n : Nat} (h : n < 9007199254740992) : toDouble n = n := by
  simp [toDouble, h]

theorem toInt_of_range {x : Int} (h1 : -2147483648 ≤ x) (h2 : x < 2147483648) :
    toInt x = x := by
  unfold toInt; omega

theorem toSizeT_of_range {x : Int} (h1 : 0 ≤ x) (h2 : x < 18446744073709551616) :
    (toSizeT x : Int) = x := by
  unfold toSizeT; omega

theorem toSizeT_natCast {n : Nat} (h : n < 18446744073709551616) : toSizeT (n : Int) = n := by
  unfold toSizeT; omega

theorem toUInt16_natCast {n : Nat} (h : n < 65536) : toUInt16 (n : Int) = n := by
  unfold toUInt16; omega

theorem toUInt16_le (n : Nat) : toUInt16 (n : Int) ≤ n := by
  unfold toUInt16; omega

theorem toUnsigned_of_range {x : Int} (h1 : 0 ≤ x) (h2 : x < 4294967296) :
    (toUnsigned x : Int) = x := by
  unfold toUnsigned; omega

/-! ## Lists of blocks -/

theorem findIdx_append_cons {α : Type} (p : α → Bool) (pre : List α) (x : α) (post : List α)
    (hpre : ∀ y ∈ pre, p y = false) (hx : p x = true) :
    (pre ++ x :: post).findIdx p = pre.length := by
  induction pre with
  | nil => simp [List.findIdx_cons, hx]
  | cons y ys ih =>
    have hy : p y = false := hpre y (List.mem_cons_self _ _)
    simp only [List.cons_append, List.findIdx_cons, hy, cond_false, List.length_cons]
    rw [ih (fun z hz => hpre z (List.mem_cons_of_mem _ hz))]

theorem coversFrom_append (l₁ l₂ : List Block) :
    ∀ (start stop : Int),
      coversFrom start (l₁ ++ l₂) stop ↔
        ∃ mid, coversFrom start l₁ mid ∧ coversFrom mid l₂ stop := by
  induction l₁ with
  | nil =>
    intro s e
    simp only [List.nil_append, coversFrom]
    constructor
    · intro h; exact ⟨s, rfl, h⟩
    · rintro ⟨mid, rfl, h⟩; exact h
  | cons b bs ih =>
    intro s e
    rw [List.cons_append]
    simp only [coversFrom]
    rw [ih]
    constructor
    · rintro ⟨hb, mid, h1, h2⟩; exact ⟨mid, ⟨hb, h1⟩, h2⟩
    · rintro ⟨mid, ⟨hb, h1⟩, h2⟩; exact ⟨hb, mid, h1, h2⟩

theorem coversFrom_le (l : List Block) :
    ∀ (start stop : Int), coversFrom start l stop → start ≤ stop := by
  induction l with
  | nil => intro s e h; simp only [coversFrom] at h; omega
  | cons b bs ih =>
    intro s e h
    simp only [coversFrom] at h
    have := ih _ _ h.2
    omega

theorem coversFrom_offset_lt (l : List Block) :
    ∀ (start stop : Int), coversFrom start l stop → (∀ b ∈ l, 0 < b.length) →
      ∀ b ∈ l, start ≤ b.offset ∧ b.offset < stop := by
  induction l with
  | nil => intro s e _ _ b hb; simp at hb
  | cons x xs ih =>
    intro s e h hpos b hb
    simp only [coversFrom] at h
    have hx := hpos x (List.mem_cons_self _ _)
    have hle := coversFrom_le _ _ _ h.2
    rcases List.mem_cons.1 hb with rfl | hb'
    · omega
    · have := ih _ _ h.2 (fun y hy => hpos y (List.mem_cons_of_mem _ hy)) b hb'
      omega

/-- In a covering list with positive lengths, the blocks before a block have
other offsets, the block starts where they end, and it ends within the arena. -/
theorem coversFrom_split {pre post : List Block} {x : Block} {start stop : Int}
    (h : coversFrom start (pre ++ x :: post) stop) (hpos : ∀ b ∈ pre, 0 < b.length) :
    (∀ y ∈ pre, y.offset ≠ x.offset) ∧ coversFrom start pre x.offset ∧
      coversFrom (x.offset + (x.length : Int)) post stop ∧ start ≤ x.offset ∧
      x.offset + (x.length : Int) ≤ stop := by
  rw [coversFrom_append] at h
  obtain ⟨mid, h1, h2⟩ := h
  simp only [coversFrom] at h2
  obtain ⟨rfl, h3⟩ := h2
  refine ⟨?_, h1, h3, coversFrom_le _ _ _ h1, coversFrom_le _ _ _ h3⟩
  intro y hy
  have := coversFrom_offset_lt _ _ _ h1 hpos y hy
  omega

/-! ## Successful allocation -/

/-- What `allocate` does once the strategy has answered with the offset of a
block of the list: the block `hole` found at that offset, preceded by blocks
with other offsets, gets the new allocated block in front of it and is itself
shortened, or erased when nothing is left of it. All arithmetic is still the
machine's. -/
theorem allocate_at (m : MemoryManager) (sizeInBytes : Nat) (pre post : List Block)
    (hole : Block) (offsetToAllocate : Int)
    (hws : m.wordSize ≠ 0)
    (hsize : toDouble (sizeInBytes / m.wordSize) < 18446744073709551616)
    (hmem : m.memory = pre ++ hole :: post)
    (hpre : ∀ y ∈ pre, y.offset ≠ offsetToAllocate)
    (hoff : hole.offset = offsetToAllocate)
    (hne : offsetToAllocate ≠ -1)
    (hstrategy : m.allocator (toInt (toDouble (sizeInBytes / m.wordSize))) m.getList
      = some offsetToAllocate) :
    m.allocate sizeInBytes = some (m.ptr + toUnsigned (offsetToAllocate * m.wordSize),
      { m with memory := pre ++
          (⟨offsetToAllocate, toDouble (sizeInBytes / m.wordSize), true⟩ : Block) ::
          ((if toSizeT (hole.length - toDouble (sizeInBytes / m.wordSize)) ≤ 0 then []
            else [{ hole with
                    offset := toInt (hole.offset + toDouble (sizeInBytes / m.wordSize)),
                    length := toSizeT (hole.length - toDouble (sizeInBytes / m.wordSize)) }])
          ++ post) }) := by
  have hidx : m.memory.findIdx (fun block => block.offset == offsetToAllocate) = pre.length := by
    rw [hmem]
    apply findIdx_append_cons
    · intro y hy; simpa using hpre y hy
    · simpa using hoff
  have hget : m.memory[pre.length]? = some hole := by
    rw [hmem, List.getElem?_append_right (Nat.le_refl _)]; simp
  have htake : m.memory.take pre.length = pre := by
    rw [hmem]; simp
  have hdrop : m.memory.drop (pre.length + 1) = post := by
    rw [hmem]; simp
  unfold MemoryManager.allocate
  rw [if_neg hws, if_neg (by omega)]
  simp only [hstrategy, if_neg hne, hidx, hget, htake, hdrop, List.append_assoc,
    List.cons_append]

/-- Successful allocation on a well-formed list: when the strategy returns the
offset `o` of the hole `(o, L)` and the word count `w = sizeInBytes / wordSize`
that `allocate` computed is at most `L`, the hole is replaced by the allocated
block `(o, w)` followed by the hole `(o + w, L - w)` when `L > w` and by nothing
when `L = w`; the blocks before and after keep their place. The address
returned is the base plus `o * wordSize` taken modulo 2^32. -/
theorem allocate_splits_hole (m : MemoryManager) (capacity sizeInBytes : Nat)
    (pre post : List Block) (o : Int) (L : Nat)
    (hws : 0 < m.wordSize)
    (hwf : WellFormed capacity m.memory)
    (hmem : m.memory = pre ++ ⟨o, L, false⟩ :: post)
    (hstrategy : m.allocator (toInt ((sizeInBytes / m.wordSize : Nat) : Int)) m.getList
      = some o)
    (hfit : sizeInBytes / m.wordSize ≤ L) :
    m.allocate sizeInBytes = some (m.ptr + toUnsigned (o * m.wordSize),
      { m with memory := pre ++ (⟨o, sizeInBytes / m.wordSize, true⟩ : Block) ::
          ((if L = sizeInBytes / m.wordSize then []
            else [⟨o + ((sizeInBytes / m.wordSize : Nat) : Int),
                  L - sizeInBytes / m.wordSize, false⟩]) ++ post) }) := by
  obtain ⟨⟨_, hcov⟩, _, hpos, hcap⟩ := hwf
  rw [hmem] at hcov hpos
  obtain ⟨hpre, _, _, hlo, hhi⟩ :=
    coversFrom_split hcov (fun b hb => hpos b (by simp [hb]))
  simp only at hpre hlo hhi
  have hw : sizeInBytes / m.wordSize < 9007199254740992 := by omega
  have hd := toDouble_of_lt hw
  have h := allocate_at m sizeInBytes pre post ⟨o, L, false⟩ o (by omega) (by omega) hmem
    hpre rfl (by omega) (by rw [hd]; exact hstrategy)
  rw [h, hd]
  have hlen : toSizeT ((L : Int) - ((sizeInBytes / m.wordSize : Nat) : Int))
      = L - sizeInBytes / m.wordSize := by
    unfold toSizeT; omega
  have hoff : toInt (o + ((sizeInBytes / m.wordSize : Nat) : Int))
      = o + ((sizeInBytes / m.wordSize : Nat) : Int) := by
    unfold toInt; omega
  simp only [hlen, hoff]
  by_cases hL : L = sizeInBytes / m.wordSize
  · rw [if_pos hL, if_pos (by omega)]
  · rw [if_neg hL, if_neg (by omega)]

/-- An instance of `allocate_splits_hole`: `allocate(4)` on the fresh arena of
20 words. -/
theorem allocate_splits_hole_witness :
    outcome (manager20.allocate 4) = some (4096, [⟨0, 4, true⟩, ⟨4, 16, false⟩]) :=
  congrArg outcome
    (allocate_splits_hole manager20 20 4 [] [] 0 20 (by decide) (by decide) (by decide)
      (by decide) (by decide))

/-! ## The snapshot that `allocate` hands to the strategy -/

theorem holePairs_append (a b : List (Nat × Nat)) :
    holePairs (a ++ b) = holePairs a ++ holePairs b := by
  simp [holePairs]

theorem getList_eq (m : MemoryManager) (hinit : m.memory ≠ []) :
    m.getList = some (toUInt16 (snapshotHoles m.memory).length ::
      holePairs (snapshotHoles m.memory)) := by
  unfold MemoryManager.getList
  have : m.memory.isEmpty = false := by
    cases hm : m.memory with
    | nil => exact absurd hm hinit
    | cons _ _ => rfl
  simp [this, snapshotHoles, holePairs, List.flatMap_map]

theorem bestFit_getList (m : MemoryManager) (hinit : m.memory ≠ []) (sizeInWords : Int) :
    bestFit sizeInWords m.getList = some (bestFitScan sizeInWords
      ((snapshotHoles m.memory).take (toUInt16 (snapshotHoles m.memory).length))
      INT_MAX (-1)) := by
  rw [getList_eq m hinit]
  have hle := toUInt16_le (snapshotHoles m.memory).length
  have hsplit := List.take_append_drop (toUInt16 (snapshotHoles m.memory).length)
    (snapshotHoles m.memory)
  have hlen : ((snapshotHoles m.memory).take
      (toUInt16 (snapshotHoles m.memory).length)).length
      = toUInt16 (snapshotHoles m.memory).length := by
    rw [List.length_take]; omega
  have := bestFitLoop_eq_scan sizeInWords
    ((snapshotHoles m.memory).take (toUInt16 (snapshotHoles m.memory).length))
    (holePairs ((snapshotHoles m.memory).drop (toUInt16 (snapshotHoles m.memory).length)))
    [toUInt16 (snapshotHoles m.memory).length] INT_MAX (-1)
  rw [← holePairs_append, hsplit, hlen] at this
  simpa [bestFit] using this

theorem worstFit_getList (m : MemoryManager) (hinit : m.memory ≠ []) (sizeInWords : Int) :
    worstFit sizeInWords m.getList = some (worstFitScan sizeInWords
      ((snapshotHoles m.memory).take (toUInt16 (snapshotHoles m.memory).length))
      0 (-1)) := by
  rw [getList_eq m hinit]
  have hle := toUInt16_le (snapshotHoles m.memory).length
  have hsplit := List.take_append_drop (toUInt16 (snapshotHoles m.memory).length)
    (snapshotHoles m.memory)
  have hlen : ((snapshotHoles m.memory).take
      (toUInt16 (snapshotHoles m.memory).length)).length
      = toUInt16 (snapshotHoles m.memory).length := by
    rw [List.length_take]; omega
  have := worstFitLoop_eq_scan sizeInWords
    ((snapshotHoles m.memory).take (toUInt16 (snapshotHoles m.memory).length))
    (holePairs ((snapshotHoles m.memory).drop (toUInt16 (snapshotHoles m.memory).length)))
    [toUInt16 (snapshotHoles m.memory).length] 0 (-1)
  rw [← holePairs_append, hsplit, hlen] at this
  simpa [worstFit] using this

/-- No fit changes nothing, for requests whose word count is an `int`: on an
initialised manager, when `sizeInBytes / wordSize` is below 2^31 and larger
than the length of every hole, `allocate` with `bestFit` or `worstFit` returns
null and the manager is unchanged. -/
theorem allocate_no_fit (m : MemoryManager) (sizeInBytes : Nat)
    (hws : 0 < m.wordSize) (hinit : m.memory ≠ [])
    (hstrategy : m.allocator = bestFit ∨ m.allocator = worstFit)
    (hint : sizeInBytes / m.wordSize < 2147483648)
    (hlarge : ∀ b ∈ m.memory, b.allocated = false → b.length < sizeInBytes / m.wordSize) :
    m.allocate sizeInBytes = some (nullptr, m) := by
  have hd : toDouble (sizeInBytes / m.wordSize) = sizeInBytes / m.wordSize :=
    toDouble_of_lt (by omega)
  have hreq : toInt ((sizeInBytes / m.wordSize : Nat) : Int)
      = ((sizeInBytes / m.wordSize : Nat) : Int) := toInt_of_range (by omega) (by omega)
  have hsmall : ∀ h ∈ (snapshotHoles m.memory).take
      (toUInt16 (snapshotHoles m.memory).length),
      (h.2 : Int) < ((sizeInBytes / m.wordSize : Nat) : Int) := by
    intro h hh
    have hh' := List.mem_of_mem_take hh
    simp only [snapshotHoles, List.mem_map, List.mem_filter, Bool.not_eq_true',
      ] at hh'
    obtain ⟨b, ⟨hb, hfree⟩, rfl⟩ := hh'
    have h1 := hlarge b hb hfree
    have h2 := toUInt16_le b.length
    simp only
    omega
  have hanswer : m.allocator (toInt ((sizeInBytes / m.wordSize : Nat) : Int)) m.getList
      = some (-1) := by
    rcases hstrategy with h | h
    · rw [h, bestFit_getList m hinit, bestFitScan_none]
      intro x hx hc
      have := hsmall x hx
      omega
    · rw [h, worstFit_getList m hinit, worstFitScan_none]
      intro x hx hc
      have := hsmall x hx
      omega
  unfold MemoryManager.allocate
  rw [if_neg (by omega), if_neg (by omega), hd]
  simp only [hanswer, if_true]

/-- An instance of `allocate_no_fit`: 21 words from an arena of 20. -/
theorem allocate_no_fit_witness : outcome (manager20.allocate 21) = some (0, manager20.memory) :=
  congrArg outcome
    (allocate_no_fit manager20 21 (by decide) (by decide) (Or.inl rfl) (by decide) (by decide))

/-! ## Freeing a block that is not the last one -/

/-- Freeing a block that has a successor, on a well-formed list: when the
address maps to the offset of the block `b` at position `pre.length`, and `b`
is followed by `next`, `free` yields the list in which `b` is free and merged
with its free neighbours, as `coalesce` describes. -/
theorem free_coalesces (m : MemoryManager) (capacity address : Nat)
    (pre post : List Block) (b next : Block)
    (hws : 0 < m.wordSize)
    (hwf : WellFormed capacity m.memory)
    (hmem : m.memory = pre ++ b :: next :: post)
    (haddr : toInt (Int.tdiv ((address : Int) - m.ptr) m.wordSize) = b.offset) :
    m.free address = some { m with memory := coalesce pre b next post } := by
  obtain ⟨⟨_, hcov⟩, _, hpos, hcap⟩ := hwf
  rw [hmem] at hcov hpos
  obtain ⟨hpre, hcpre, hcpost, hlo, hhi⟩ :=
    coversFrom_split hcov (fun y hy => hpos y (by simp [hy]))
  simp only [coversFrom] at hcpost
  obtain ⟨hnext, hcrest⟩ := hcpost
  have hrest := coversFrom_le _ _ _ hcrest
  have hidx : m.memory.findIdx
      (fun block => block.offset == toInt (Int.tdiv ((address : Int) - m.ptr) m.wordSize))
      = pre.length := by
    rw [hmem, haddr]
    apply findIdx_append_cons
    · intro y hy; simpa using hpre y hy
    · simp
  have hget : m.memory[pre.length]? = some b := by
    rw [hmem, List.getElem?_append_right (Nat.le_refl _)]; simp
  have hget1 : m.memory[pre.length + 1]? = some next := by
    rw [hmem, List.getElem?_append_right (Nat.le_add_right _ _)]; simp
  have htake : m.memory.take pre.length = pre := by rw [hmem]; simp
  have hdrop1 : m.memory.drop (pre.length + 1) = next :: post := by rw [hmem]; simp
  have hdrop2 : m.memory.drop (pre.length + 2) = post := by
    rw [hmem, List.drop_append]; rfl
  have hsum : toSizeT ((b.length : Int) + (next.length : Int)) = b.length + next.length := by
    unfold toSizeT; omega
  unfold MemoryManager.free
  rw [if_neg (by omega)]
  simp only [hidx, hget, hget1, htake, hdrop1, hdrop2, hsum]
  rcases List.eq_nil_or_concat pre with hnil | ⟨pre', prev, hcat⟩
  · subst hnil
    cases hn : next.allocated <;> simp [coalesce, hn]
  · rw [List.concat_eq_append] at hcat
    subst hcat
    rw [coversFrom_append] at hcpre
    obtain ⟨mid, hc1, hc2⟩ := hcpre
    simp only [coversFrom] at hc2
    obtain ⟨hprev, hend⟩ := hc2
    have hmid := coversFrom_le _ _ _ hc1
    have hget0 : m.memory[(pre' ++ [prev]).length - 1]? = some prev := by
      have : (pre' ++ [prev]).length - 1 = pre'.length := by simp
      rw [hmem, this, List.append_assoc, List.getElem?_append_right (Nat.le_refl _)]
      simp
    have htake0 : m.memory.take ((pre' ++ [prev]).length - 1) = pre' := by
      rw [hmem]; simp
    have hne : (pre' ++ [prev]).length ≠ 0 := by simp
    have hoff : toInt (b.offset - (prev.length : Int)) = prev.offset := by
      unfold toInt; omega
    have hsum1 : toSizeT ((b.length : Int) + (prev.length : Int))
        = prev.length + b.length := by
      unfold toSizeT; omega
    have hsum2 : toSizeT ((b.length : Int) + (next.length : Int) + (prev.length : Int))
        = prev.length + (b.length + next.length) := by
      unfold toSizeT; omega
    simp only [hget0, htake0, if_pos hne]
    cases hn : next.allocated <;> cases hp : prev.allocated <;>
      simp [coalesce, hn, hp, hoff, hsum1, hsum2]

/-! ## What the strategies return on a well-formed list -/

theorem bestFitScan_mem (sizeInWords : Int) (hs : List (Nat × Nat)) :
    ∀ (minHoleThatFits offset : Int),
      bestFitScan sizeInWords hs minHoleThatFits offset = offset ∨
      ∃ h ∈ hs, sizeInWords ≤ (h.2 : Int) ∧
        bestFitScan sizeInWords hs minHoleThatFits offset = (h.1 : Int) := by
  induction hs with
  | nil => intro m o; exact Or.inl rfl
  | cons x xs ih =>
    intro m o
    simp only [bestFitScan, ge_iff_le]
    split
    · next hc =>
      rcases ih x.2 x.1 with h | ⟨h, hh, hq, hr⟩
      · exact Or.inr ⟨x, List.mem_cons_self _ _, hc.2, h⟩
      · exact Or.inr ⟨h, List.mem_cons_of_mem _ hh, hq, hr⟩
    · rcases ih m o with h | ⟨h, hh, hq, hr⟩
      · exact Or.inl h
      · exact Or.inr ⟨h, List.mem_cons_of_mem _ hh, hq, hr⟩

theorem worstFitScan_mem (sizeInWords : Int) (hs : List (Nat × Nat)) :
    ∀ (maxHole offset : Int),
      worstFitScan sizeInWords hs maxHole offset = offset ∨
      ∃ h ∈ hs, sizeInWords ≤ (h.2 : Int) ∧
        worstFitScan sizeInWords hs maxHole offset = (h.1 : Int) := by
  induction hs with
  | nil => intro m o; exact Or.inl rfl
  | cons x xs ih =>
    intro m o
    simp only [worstFitScan, ge_iff_le]
    split
    · next hc =>
      rcases ih x.2 x.1 with h | ⟨h, hh, hq, hr⟩
      · exact Or.inr ⟨x, List.mem_cons_self _ _, hc.2, h⟩
      · exact Or.inr ⟨h, List.mem_cons_of_mem _ hh, hq, hr⟩
    · rcases ih m o with h | ⟨h, hh, hq, hr⟩
      · exact Or.inl h
      · exact Or.inr ⟨h, List.mem_cons_of_mem _ hh, hq, hr⟩

theorem coversFrom_mem_bounds (l : List Block) :
    ∀ (start stop : Int), coversFrom start l stop →
      ∀ b ∈ l, start ≤ b.offset ∧ b.offset + (b.length : Int) ≤ stop := by
  induction l with
  | nil => intro s e _ b hb; simp at hb
  | cons x xs ih =>
    intro s e h b hb
    simp only [coversFrom] at h
    have hle := coversFrom_le _ _ _ h.2
    rcases List.mem_cons.1 hb with rfl | hb'
    · omega
    · have := ih _ _ h.2 b hb'
      omega

/-- On a well-formed list every block lies inside `[0, capacity)` words, so its
offset and length are written to the snapshot unchanged. -/
theorem wellFormed_block_bounds {capacity : Nat} {memory : List Block}
    (hwf : WellFormed capacity memory) {b : Block} (hb : b ∈ memory) :
    0 ≤ b.offset ∧ b.offset + (b.length : Int) ≤ capacity ∧ 0 < b.length ∧
      capacity ≤ 65535 := by
  obtain ⟨⟨_, hcov⟩, _, hpos, hcap⟩ := hwf
  have := coversFrom_mem_bounds _ _ _ hcov b hb
  exact ⟨this.1, this.2, hpos b hb, hcap⟩

/-- On a well-formed list, `bestFit` and `worstFit`, asked for a word count
that is an `int`, answer `-1` or the offset of a hole of the list that is at
least as long as the request. -/
theorem strategy_answer (m : MemoryManager) (capacity : Nat) (words : Nat)
    (hwf : WellFormed capacity m.memory)
    (hstrategy : m.allocator = bestFit ∨ m.allocator = worstFit)
    (hint : words < 2147483648) :
    m.allocator (toInt (words : Int)) m.getList = some (-1) ∨
    ∃ b ∈ m.memory, b.allocated = false ∧ words ≤ b.length ∧
      m.allocator (toInt (words : Int)) m.getList = some b.offset := by
  have hinit : m.memory ≠ [] := hwf.1.1
  have hreq : toInt (words : Int) = (words : Int) := toInt_of_range (by omega) (by omega)
  have hkey : ∀ r : Int,
      (r = -1 ∨ ∃ h ∈ (snapshotHoles m.memory).take
          (toUInt16 (snapshotHoles m.memory).length),
          (words : Int) ≤ (h.2 : Int) ∧ r = (h.1 : Int)) →
      r = -1 ∨ ∃ b ∈ m.memory, b.allocated = false ∧ words ≤ b.length ∧ r = b.offset := by
    rintro r (h | ⟨h, hh, hq, hr⟩)
    · exact Or.inl h
    · right
      have hh' := List.mem_of_mem_take hh
      simp only [snapshotHoles, List.mem_map, List.mem_filter, Bool.not_eq_true'] at hh'
      obtain ⟨b, ⟨hb, hfree⟩, rfl⟩ := hh'
      obtain ⟨h0, h1, _, h3⟩ := wellFormed_block_bounds hwf hb
      have e1 : toUInt16 b.offset = b.offset.toNat := by unfold toUInt16; omega
      have e2 : toUInt16 (b.length : Int) = b.length := by unfold toUInt16; omega
      simp only [e1, e2] at hq hr
      exact ⟨b, hb, hfree, by omega, by omega⟩
  rcases hstrategy with h | h
  · rw [h, bestFit_getList m hinit, hreq]
    rcases hkey _ (bestFitScan_mem _ _ _ _) with h1 | ⟨b, hb, hf, hw, hr⟩
    · exact Or.inl (by rw [h1])
    · exact Or.inr ⟨b, hb, hf, hw, by rw [hr]⟩
  · rw [h, worstFit_getList m hinit, hreq]
    rcases hkey _ (worstFitScan_mem _ _ _ _) with h1 | ⟨b, hb, hf, hw, hr⟩
    · exact Or.inl (by rw [h1])
    · exact Or.inr ⟨b, hb, hf, hw, by rw [hr]⟩

/-! ## Well-formedness is kept by a successful allocation -/

theorem noAdjacentHoles_iff_chain' (l : List Block) :
    NoAdjacentHoles l ↔
      List.Chain' (fun a b : Block => ¬ (a.allocated = false ∧ b.allocated = false)) l := by
  induction l with
  | nil => simp [NoAdjacentHoles]
  | cons a t ih =>
    cases t with
    | nil => simp [NoAdjacentHoles]
    | cons b rest =>
      rw [List.chain'_cons, ← ih]
      simp [NoAdjacentHoles]

theorem chain'_replace {α : Type} {R : α → α → Prop} {pre post tail : List α} {x y : α}
    (h : List.Chain' R (pre ++ x :: post))
    (hxy : ∀ z, R z x → R z y)
    (ht : List.Chain' R (y :: tail)) :
    List.Chain' R (pre ++ y :: tail) := by
  rw [List.chain'_split] at h ⊢
  refine ⟨?_, ht⟩
  have h1 := List.chain'_append.1 h.1
  refine List.chain'_append.2 ⟨h1.1, List.chain'_singleton y, ?_⟩
  intro a ha b hb
  simp only [List.head?_cons, Option.mem_def, Option.some.injEq] at hb
  subst hb
  exact hxy a (h1.2.2 a ha x (by simp))

/-- Replacing a hole of a well-formed list by an allocated block of `w ≥ 1`
words, followed by the rest of the hole when something is left, gives a
well-formed list again. -/
theorem wellFormed_split {capacity : Nat} {pre post : List Block} {o : Int} {L w : Nat}
    (hwf : WellFormed capacity (pre ++ ⟨o, L, false⟩ :: post))
    (hw1 : 1 ≤ w) (hwL : w ≤ L) :
    WellFormed capacity (pre ++ (⟨o, w, true⟩ : Block) ::
      ((if L = w then [] else [⟨o + (w : Int), L - w, false⟩]) ++ post)) := by
  obtain ⟨⟨_, hcov⟩, hadj, hpos, hcap⟩ := hwf
  refine ⟨⟨by simp, ?_⟩, ?_, ?_, hcap⟩
  · rw [coversFrom_append] at hcov ⊢
    obtain ⟨mid, hc1, hc2⟩ := hcov
    refine ⟨mid, hc1, ?_⟩
    simp only [coversFrom] at hc2
    obtain ⟨ho, hc3⟩ := hc2
    by_cases hL : L = w
    · subst hL
      simp only [if_true, List.nil_append, coversFrom]
      exact ⟨ho, hc3⟩
    · have e : mid + (w : Int) + ((L - w : Nat) : Int) = mid + (L : Int) := by omega
      simp only [hL, if_false, List.cons_append, List.nil_append, coversFrom]
      refine ⟨ho, by rw [ho], ?_⟩
      rw [e]
      exact hc3
  · rw [noAdjacentHoles_iff_chain'] at hadj ⊢
    have hpost : List.Chain' (fun a b : Block => ¬ (a.allocated = false ∧ b.allocated = false))
        ((⟨o, L, false⟩ : Block) :: post) := (List.chain'_split.1 hadj).2
    apply chain'_replace hadj
    · intro z _; simp
    · by_cases hL : L = w
      · simp only [hL, if_true, List.nil_append]
        exact List.Chain'.imp_head (by simp) hpost
      · simp only [hL, if_false, List.cons_append, List.nil_append]
        rw [List.chain'_cons]
        refine ⟨by simp, ?_⟩
        exact List.Chain'.imp_head (fun h => by simpa using h) hpost
  · intro b hb
    by_cases hL : L = w
    · simp only [hL, if_true, List.nil_append, List.mem_append, List.mem_cons] at hb
      rcases hb with hb | hb | hb
      · exact hpos b (by simp [hb])
      · subst hb; exact hw1
      · exact hpos b (by simp [hb])
    · simp only [hL, if_false, List.cons_append, List.nil_append, List.mem_append,
        List.mem_cons] at hb
      rcases hb with hb | hb | hb | hb
      · exact hpos b (by simp [hb])
      · subst hb; exact hw1
      · subst hb; simp only; omega
      · exact hpos b (by simp [hb])

/-- The two outcomes of `allocate` on a well-formed list with `bestFit` or
`worstFit`, for a word count that is an `int`: no fit, with a null result and
the manager unchanged, or a hole `(o, L)` with `L` at least the word count,
split as `allocate_splits_hole` says. -/
theorem allocate_cases (m : MemoryManager) (capacity sizeInBytes : Nat)
    (hws : 0 < m.wordSize)
    (hwf : WellFormed capacity m.memory)
    (hstrategy : m.allocator = bestFit ∨ m.allocator = worstFit)
    (hint : sizeInBytes / m.wordSize < 2147483648) :
    m.allocate sizeInBytes = some (nullptr, m) ∨
    ∃ (pre post : List Block) (o : Int) (L : Nat),
      m.memory = pre ++ ⟨o, L, false⟩ :: post ∧ sizeInBytes / m.wordSize ≤ L ∧
      m.allocate sizeInBytes = some (m.ptr + toUnsigned (o * m.wordSize),
        { m with memory := pre ++ (⟨o, sizeInBytes / m.wordSize, true⟩ : Block) ::
            ((if L = sizeInBytes / m.wordSize then []
              else [⟨o + ((sizeInBytes / m.wordSize : Nat) : Int),
                    L - sizeInBytes / m.wordSize, false⟩]) ++ post) }) := by
  rcases strategy_answer m capacity (sizeInBytes / m.wordSize) hwf hstrategy hint with
    h | ⟨b, hb, hfree, hfit, hans⟩
  · left
    have hd : toDouble (sizeInBytes / m.wordSize) = sizeInBytes / m.wordSize :=
      toDouble_of_lt (by omega)
    unfold MemoryManager.allocate
    rw [if_neg (by omega), if_neg (by omega), hd]
    simp only [h, if_true]
  · right
    obtain ⟨pre, post, hsplit⟩ := List.append_of_mem hb
    have hbeq : b = ⟨b.offset, b.length, false⟩ := by
      cases b; simp only at hfree; simp [hfree]
    rw [hbeq] at hsplit
    exact ⟨pre, post, b.offset, b.length, hsplit, hfit,
      allocate_splits_hole m capacity sizeInBytes pre post b.offset b.length hws hwf hsplit
        hans hfit⟩

/-! ## Freeing: the last block, and well-formedness after a merge -/

/-- Freeing the last block of the list has no defined result: `free` reads
`afterNewHole->allocated` through `end()`. -/
theorem free_last_undefined (m : MemoryManager) (address : Nat) (pre : List Block) (b : Block)
    (hmem : m.memory = pre ++ [b])
    (hpre : ∀ y ∈ pre, y.offset ≠ b.offset)
    (haddr : toInt (Int.tdiv ((address : Int) - m.ptr) m.wordSize) = b.offset) :
    m.free address = none := by
  have hidx : m.memory.findIdx
      (fun block => block.offset == toInt (Int.tdiv ((address : Int) - m.ptr) m.wordSize))
      = pre.length := by
    rw [hmem, haddr]
    apply findIdx_append_cons
    · intro y hy; simpa using hpre y hy
    · simp
  have hget : m.memory[pre.length]? = some b := by
    rw [hmem, List.getElem?_append_right (Nat.le_refl _)]; simp
  have hget1 : m.memory[pre.length + 1]? = none := by
    rw [hmem]; simp
  unfold MemoryManager.free
  split
  · rfl
  · simp only [hidx, hget, hget1]

/-- The list that `coalesce` describes is well formed when the list before the
free was. -/
theorem wellFormed_coalesce {capacity : Nat} {pre post : List Block} {b next : Block}
    (hwf : WellFormed capacity (pre ++ b :: next :: post)) :
    WellFormed capacity (coalesce pre b next post) := by
  obtain ⟨⟨_, hcov⟩, hadj, hpos, hcap⟩ := hwf
  rw [noAdjacentHoles_iff_chain'] at hadj
  rw [coversFrom_append] at hcov
  obtain ⟨mid, hc1, hc2⟩ := hcov
  simp only [coversFrom] at hc2
  obtain ⟨hb, hn, hc3⟩ := hc2
  have hbpos := hpos b (by simp)
  have hnpos := hpos next (by simp)
  have hpostpos : ∀ x ∈ post, 0 < x.length := fun x hx => hpos x (by simp [hx])
  have hprepos : ∀ x ∈ pre, 0 < x.length := fun x hx => hpos x (by simp [hx])
  have hchain_next : List.Chain'
      (fun a b : Block => ¬ (a.allocated = false ∧ b.allocated = false)) (next :: post) :=
    (List.chain'_cons.1 (List.chain'_split.1 hadj).2).2
  have hchain_pre : List.Chain'
      (fun a b : Block => ¬ (a.allocated = false ∧ b.allocated = false)) (pre ++ [b]) :=
    (List.chain'_split.1 hadj).1
  -- the merged hole and what follows it
  have hrest : ∀ (hole : Block) (rest : List Block),
      hole.allocated = false → hole.offset = mid →
      coversFrom (mid + (hole.length : Int)) rest capacity →
      0 < hole.length → (∀ x ∈ rest, 0 < x.length) →
      List.Chain' (fun a b : Block => ¬ (a.allocated = false ∧ b.allocated = false))
        (hole :: rest) →
      WellFormed capacity
        (match pre.getLast? with
         | none => hole :: rest
         | some prev =>
           if prev.allocated then pre ++ hole :: rest
           else pre.dropLast ++ ⟨prev.offset, prev.length + hole.length, false⟩ :: rest) := by
    intro hole rest hfree hoff hcr hlen hrpos hch
    rcases List.eq_nil_or_concat pre with hnil | ⟨pre', prev, hcat⟩
    · subst hnil
      simp only [coversFrom] at hc1
      subst hc1
      simp only [List.getLast?_nil]
      refine ⟨⟨by simp, ?_⟩, ?_, ?_, hcap⟩
      · simp only [coversFrom]; exact ⟨hoff, hcr⟩
      · rw [noAdjacentHoles_iff_chain']; exact hch
      · intro x hx
        rcases List.mem_cons.1 hx with rfl | hx
        · exact hlen
        · exact hrpos x hx
    · rw [List.concat_eq_append] at hcat
      subst hcat
      have hlast : (pre' ++ [prev]).getLast? = some prev := by simp
      have hdl : (pre' ++ [prev]).dropLast = pre' := by simp
      simp only [hlast, hdl]
      rw [coversFrom_append] at hc1
      obtain ⟨mid', hc1a, hc1b⟩ := hc1
      simp only [coversFrom] at hc1b
      obtain ⟨hpo, hpe⟩ := hc1b
      have hprevpos := hprepos prev (by simp)
      cases hp : prev.allocated
      · -- the previous block is free: it absorbs the hole
        simp only [Bool.false_eq_true, if_false]
        refine ⟨⟨by simp, ?_⟩, ?_, ?_, hcap⟩
        · rw [coversFrom_append]
          refine ⟨mid', hc1a, ?_⟩
          simp only [coversFrom]
          refine ⟨hpo, ?_⟩
          have e : mid' + ((prev.length + hole.length : Nat) : Int)
              = mid + (hole.length : Int) := by omega
          rw [e]; exact hcr
        · rw [noAdjacentHoles_iff_chain']
          have h1 : List.Chain'
              (fun a b : Block => ¬ (a.allocated = false ∧ b.allocated = false))
              (pre' ++ prev :: [b]) := by
            simpa using hchain_pre
          apply chain'_replace h1
          · intro z hz; simpa [hp] using hz
          · exact List.Chain'.imp_head (fun h => by simpa [hfree] using h) hch
        · intro x hx
          simp only [List.mem_append, List.mem_cons] at hx
          rcases hx with hx | hx | hx
          · exact hprepos x (by simp [hx])
          · subst hx; simp only; omega
          · exact hrpos x hx
      · -- the previous block is allocated: the hole stays behind it
        simp only [if_true]
        refine ⟨⟨by simp, ?_⟩, ?_, ?_, hcap⟩
        · rw [List.append_assoc, coversFrom_append]
          refine ⟨mid', hc1a, ?_⟩
          simp only [List.singleton_append, coversFrom]
          refine ⟨hpo, by omega, ?_⟩
          have e : mid' + (prev.length : Int) + (hole.length : Int)
              = mid + (hole.length : Int) := by omega
          rw [e]; exact hcr
        · rw [noAdjacentHoles_iff_chain']
          rw [List.append_assoc]
          rw [List.append_assoc] at hchain_pre
          simp only [List.singleton_append] at hchain_pre ⊢
          have hpp := (List.chain'_split.1 hchain_pre).1
          refine List.chain'_split.2 ⟨hpp, ?_⟩
          rw [List.chain'_cons]
          exact ⟨by simp [hp], hch⟩
        · intro x hx
          simp only [List.mem_append, List.mem_cons, List.mem_singleton, List.not_mem_nil,
            or_false] at hx
          rcases hx with (hx | hx) | hx | hx
          · exact hprepos x (by simp [hx])
          · subst hx; exact hprevpos
          · subst hx; exact hlen
          · exact hrpos x hx
  unfold coalesce
  cases hna : next.allocated
  · -- `next` is free and is absorbed
    simp only [Bool.false_eq_true, if_false]
    refine hrest ⟨b.offset, b.length + next.length, false⟩ post rfl hb ?_ ?_ hpostpos ?_
    · have e : mid + ((b.length + next.length : Nat) : Int)
          = mid + (b.length : Int) + (next.length : Int) := by omega
      simp only
      rw [e]; exact hc3
    · simp only; omega
    · exact List.Chain'.imp_head (fun h => by simpa [hna] using h) hchain_next
  · simp only [if_true]
    refine hrest ⟨b.offset, b.length, false⟩ (next :: post) rfl hb ?_ hbpos ?_ ?_
    · simp only [coversFrom]
      exact ⟨hn, hc3⟩
    · intro x hx
      rcases List.mem_cons.1 hx with rfl | hx
      · exact hnpos
      · exact hpostpos x hx
    · rw [List.chain'_cons]
      exact ⟨by simp [hna], hchain_next⟩

/-! ## Allocate, then free the same address -/

/-- The address that `allocate` returns for offset `o` maps back to `o` in
`free`, as long as `o * wordSize` fits the 32 bits it is computed in. -/
theorem address_maps_back (ptr wordSize : Nat) (o : Int)
    (hws : 0 < wordSize) (ho : 0 ≤ o) (hint : o < 2147483648)
    (hbytes : o * (wordSize : Int) < 4294967296) :
    toInt (Int.tdiv (((ptr + toUnsigned (o * wordSize) : Nat) : Int) - (ptr : Int))
      (wordSize : Int)) = o := by
  have hnn : 0 ≤ o * (wordSize : Int) := Int.mul_nonneg ho (by omega)
  have hu := toUnsigned_of_range hnn hbytes
  have : ((ptr + toUnsigned (o * wordSize) : Nat) : Int) - (ptr : Int)
      = o * (wordSize : Int) := by
    push_cast; omega
  rw [this, Int.mul_tdiv_cancel _ (by omega)]
  exact toInt_of_range (by omega) hint

theorem last_before_hole_allocated {pre post : List Block} {hole : Block}
    (hadj : NoAdjacentHoles (pre ++ hole :: post)) (hfree : hole.allocated = false) :
    ∀ prev, pre.getLast? = some prev → prev.allocated = true := by
  intro prev hprev
  rw [noAdjacentHoles_iff_chain'] at hadj
  have h := (List.chain'_append.1 (List.chain'_split.1 hadj).1).2.2 prev hprev hole (by simp)
  cases hp : prev.allocated
  · exact absurd ⟨hp, hfree⟩ h
  · rfl

theorem first_after_hole_allocated {pre post : List Block} {hole next : Block}
    (hadj : NoAdjacentHoles (pre ++ hole :: next :: post)) (hfree : hole.allocated = false) :
    next.allocated = true := by
  rw [noAdjacentHoles_iff_chain'] at hadj
  have h := (List.chain'_cons.1 (List.chain'_split.1 hadj).2).1
  cases hn : next.allocated
  · exact absurd ⟨hfree, hn⟩ h
  · rfl

theorem coalesce_of_allocated_before {pre : List Block} (b next : Block) (post : List Block)
    (hprev : ∀ prev, pre.getLast? = some prev → prev.allocated = true) :
    coalesce pre b next post =
      pre ++ (if next.allocated then (⟨b.offset, b.length, false⟩ : Block) :: next :: post
              else ⟨b.offset, b.length + next.length, false⟩ :: post) := by
  unfold coalesce
  cases hl : pre.getLast? with
  | none =>
    have : pre = [] := by simpa using hl
    subst this
    cases next.allocated <;> simp
  | some prev =>
    have hp := hprev prev hl
    cases next.allocated <;> simp [hp]

/-- Allocate, then free at once, on a well-formed list with `bestFit` or
`worstFit`: for a request of at least one word and fewer than 2^31, in an arena
whose byte size fits 32 bits, when `allocate` returns a non-null address `a`
and the block that `free(a)` looks up is not the last block of the list, the
manager after `free(a)` is the manager before the `allocate`. -/
theorem allocate_free_restores (m m' : MemoryManager) (capacity sizeInBytes a : Nat)
    (hws : 0 < m.wordSize)
    (hwf : WellFormed capacity m.memory)
    (hstrategy : m.allocator = bestFit ∨ m.allocator = worstFit)
    (hw1 : 1 ≤ sizeInBytes / m.wordSize)
    (hint : sizeInBytes / m.wordSize < 2147483648)
    (hbytes : m.wordSize * capacity < 4294967296)
    (halloc : m.allocate sizeInBytes = some (a, m'))
    (hnonnull : a ≠ nullptr)
    (hnext : m'.memory.getLast?.map (fun b => b.offset)
      ≠ some (toInt (Int.tdiv ((a : Int) - m'.ptr) m'.wordSize))) :
    m'.free a = some m := by
  rcases allocate_cases m capacity sizeInBytes hws hwf hstrategy hint with
    h | ⟨pre, post, o, L, hmem, hfit, h⟩
  · rw [h] at halloc
    simp only [Option.some.injEq, Prod.mk.injEq] at halloc
    exact absurd halloc.1.symm hnonnull
  · rw [h] at halloc
    simp only [Option.some.injEq, Prod.mk.injEq] at halloc
    obtain ⟨ha, hm'⟩ := halloc
    have hwf0 := hwf
    rw [hmem] at hwf
    have hwf' := wellFormed_split hwf hw1 hfit
    obtain ⟨ho0, ho1, _, hcap⟩ := wellFormed_block_bounds hwf0
      (b := ⟨o, L, false⟩) (by rw [hmem]; simp)
    simp only at ho0 ho1
    have hprod : o * (m.wordSize : Int) < 4294967296 := by
      have h1 : o.toNat * m.wordSize ≤ capacity * m.wordSize :=
        Nat.mul_le_mul_right _ (by omega)
      have h2 : (o.toNat : Int) = o := Int.toNat_of_nonneg ho0
      have h3 : ((o.toNat * m.wordSize : Nat) : Int) = o * (m.wordSize : Int) := by
        push_cast; rw [h2]
      have h4 : capacity * m.wordSize = m.wordSize * capacity := Nat.mul_comm _ _
      omega
    have haddr := address_maps_back m.ptr m.wordSize o hws ho0 (by omega) hprod
    rw [ha] at haddr
    have hprev := last_before_hole_allocated hwf.2.1 rfl
    have hptr : m'.ptr = m.ptr := by rw [← hm']
    have hwsz : m'.wordSize = m.wordSize := by rw [← hm']
    have hback : ∀ l, m.memory = l → ({ m' with memory := l } : MemoryManager) = m := by
      intro l hl
      rw [← hm', ← hl]
    by_cases hL : L = sizeInBytes / m.wordSize
    · -- the hole is used up: the next block of the list follows
      have hmem' : m'.memory = pre ++ (⟨o, sizeInBytes / m.wordSize, true⟩ : Block) :: post := by
        rw [← hm']; simp [hL]
      cases post with
      | nil =>
        exfalso
        apply hnext
        rw [hptr, hwsz, haddr, hmem']
        simp
      | cons next post' =>
        have hna := first_after_hole_allocated hwf.2.1 rfl
        have hwf'' : WellFormed capacity m'.memory := by
          rw [hmem']; simpa [hL] using hwf'
        rw [free_coalesces m' capacity a pre post' _ next (by omega) hwf'' hmem'
          (by rw [hptr, hwsz]; exact haddr)]
        rw [coalesce_of_allocated_before _ _ _ hprev]
        simp only [hna, if_true]
        rw [hback _ (by rw [hmem, hL])]
    · have hmem' : m'.memory = pre ++ (⟨o, sizeInBytes / m.wordSize, true⟩ : Block) ::
          ⟨o + ((sizeInBytes / m.wordSize : Nat) : Int), L - sizeInBytes / m.wordSize, false⟩
          :: post := by
        rw [← hm']; simp [hL]
      have hwf'' : WellFormed capacity m'.memory := by
        rw [hmem']; simpa [hL] using hwf'
      rw [free_coalesces m' capacity a pre post _ _ (by omega) hwf'' hmem'
        (by rw [hptr, hwsz]; exact haddr)]
      rw [coalesce_of_allocated_before _ _ _ hprev]
      simp only [Bool.false_eq_true, if_false]
      have hsum : sizeInBytes / m.wordSize + (L - sizeInBytes / m.wordSize) = L := by omega
      rw [hsum, hback _ hmem]

/-! ## One step keeps the list well formed -/

/-- A request of at least one word and fewer than 2^31 words, on a well-formed
list with `bestFit` or `worstFit`: `allocate` returns, and the list after it is
well formed. -/
theorem allocate_keeps_wellFormed (m : MemoryManager) (capacity sizeInBytes : Nat)
    (hws : 0 < m.wordSize)
    (hwf : WellFormed capacity m.memory)
    (hstrategy : m.allocator = bestFit ∨ m.allocator = worstFit)
    (hw1 : 1 ≤ sizeInBytes / m.wordSize)
    (hint : sizeInBytes / m.wordSize < 2147483648) :
    ∃ a m', m.allocate sizeInBytes = some (a, m') ∧ WellFormed capacity m'.memory := by
  rcases allocate_cases m capacity sizeInBytes hws hwf hstrategy hint with
    h | ⟨pre, post, o, L, hmem, hfit, h⟩
  · exact ⟨_, _, h, hwf⟩
  · rw [hmem] at hwf
    exact ⟨_, _, h, wellFormed_split hwf hw1 hfit⟩

/-- Freeing a block that has a successor, on a well-formed list: `free`
returns, and the list after it is well formed. -/
theorem free_keeps_wellFormed (m : MemoryManager) (capacity address : Nat)
    (pre post : List Block) (b next : Block)
    (hws : 0 < m.wordSize)
    (hwf : WellFormed capacity m.memory)
    (hmem : m.memory = pre ++ b :: next :: post)
    (haddr : toInt (Int.tdiv ((address : Int) - m.ptr) m.wordSize) = b.offset) :
    ∃ m', m.free address = some m' ∧ WellFormed capacity m'.memory := by
  refine ⟨_, free_coalesces m capacity address pre post b next hws hwf hmem haddr, ?_⟩
  rw [hmem] at hwf
  exact wellFormed_coalesce hwf

/-! ## Instances of the lemmas above -/

theorem allocate_keeps_wellFormed_witness :
    ∃ a m', manager20.allocate 4 = some (a, m') ∧ WellFormed 20 m'.memory :=
  allocate_keeps_wellFormed manager20 20 4 (by decide) (by decide) (Or.inl rfl) (by decide)
    (by decide)

theorem free_coalesces_witness :
    (manager20after4.free 4096).map (fun m => m.memory) = some [⟨0, 20, false⟩] :=
  congrArg (Option.map (fun m => m.memory))
    (free_coalesces manager20after4 20 4096 [] [] ⟨0, 4, true⟩ ⟨4, 16, false⟩ (by decide)
      (by decide) rfl (by decide))

theorem allocate_free_restores_witness :
    manager20.allocate 4 = some (4096, manager20after4)
    ∧ (manager20after4.free 4096).map (fun m => m.memory) = some manager20.memory :=
  ⟨rfl, congrArg (Option.map (fun m => m.memory))
    (allocate_free_restores manager20 manager20after4 20 4 4096 (by decide) (by decide)
      (Or.inl rfl) (by decide) (by decide) (by decide) rfl (by decide) (by decide))⟩

theorem free_last_undefined_witness :
    (MemoryManager.free { manager20 with memory := [⟨0, 4, true⟩, ⟨4, 16, true⟩] } 4100).map
      (fun m => m.memory) = none :=
  congrArg (Option.map (fun m => m.memory))
    (free_last_undefined { manager20 with memory := [⟨0, 4, true⟩, ⟨4, 16, true⟩] } 4100
      [⟨0, 4, true⟩] ⟨4, 16, true⟩ rfl (by decide) (by decide))

/-! ## Allocation keeps the list well formed (requests of at least one word) -/

theorem coversFrom_strictlyAscending (l : List Block) :
    ∀ (start stop : Int), coversFrom start l stop → (∀ b ∈ l, 0 < b.length) →
      StrictlyAscending l := by
  induction l with
  | nil => intro _ _ _ _; trivial
  | cons a t ih =>
    intro s e h hpos
    cases t with
    | nil => trivial
    | cons b rest =>
      simp only [coversFrom] at h
      obtain ⟨ha, hb, hrest⟩ := h
      have hapos := hpos a (by simp)
      refine ⟨by omega, ?_⟩
      apply ih (s + (a.length : Int)) e
      · simp only [coversFrom]; exact ⟨hb, hrest⟩
      · intro x hx; exact hpos x (List.mem_cons_of_mem _ hx)

theorem wellFormed_strictlyAscending {capacity : Nat} {memory : List Block}
    (hwf : WellFormed capacity memory) : StrictlyAscending memory :=
  coversFrom_strictlyAscending _ _ _ hwf.1.2 hwf.2.2.1

/-- C20. For every block list that partitions `[0, capacity)` with
`capacity ≤ 65535`, has every length at least 1 and no two consecutive free
blocks, and every request whose word count `sizeInBytes / wordSize` is at least
1 and below 2^31, `allocate` with `bestFit` or `worstFit` either returns null
and leaves the manager unchanged, or returns with a block list that again
partitions `[0, capacity)`, has every length at least 1, has strictly ascending
offsets and has no two consecutive free blocks. -/
theorem allocate_preserves_wellFormed (m : MemoryManager) (capacity sizeInBytes : Nat)
    (hws : 0 < m.wordSize)
    (hcap : capacity ≤ 65535)
    (hcover : Coverage capacity m.memory)
    (hlen : ∀ b ∈ m.memory, 1 ≤ b.length)
    (hadj : NoAdjacentHoles m.memory)
    (hstrategy : m.allocator = bestFit ∨ m.allocator = worstFit)
    (hw1 : 1 ≤ sizeInBytes / m.wordSize)
    (hint : sizeInBytes / m.wordSize < 2147483648) :
    m.allocate sizeInBytes = some (nullptr, m) ∨
    ∃ a m', m.allocate sizeInBytes = some (a, m') ∧
      Coverage capacity m'.memory ∧ (∀ b ∈ m'.memory, 1 ≤ b.length) ∧
      StrictlyAscending m'.memory ∧ NoAdjacentHoles m'.memory := by
  have hwf : WellFormed capacity m.memory := ⟨hcover, hadj, hlen, hcap⟩
  rcases allocate_cases m capacity sizeInBytes hws hwf hstrategy hint with
    h | ⟨pre, post, o, L, hmem, hfit, h⟩
  · exact Or.inl h
  · right
    rw [hmem] at hwf
    have hwf' := wellFormed_split hwf hw1 hfit
    exact ⟨_, _, h, hwf'.1, hwf'.2.2.1, wellFormed_strictlyAscending hwf', hwf'.2.1⟩

/-- Witness of C20: `allocate(4)` on the fresh arena of 20 words. -/
theorem allocate_preserves_wellFormed_witness :
    manager20.allocate 4 = some (nullptr, manager20) ∨
    ∃ a m', manager20.allocate 4 = some (a, m') ∧
      Coverage 20 m'.memory ∧ (∀ b ∈ m'.memory, 1 ≤ b.length) ∧
      StrictlyAscending m'.memory ∧ NoAdjacentHoles m'.memory :=
  allocate_preserves_wellFormed manager20 20 4 (by decide) (by decide) (by decide)
    (by decide) (by decide) (Or.inl rfl) (by decide) (by decide)

/-! ## initialize -/

/-- C16 (failing input). With word size 2^31, after `initialize(3)` the block
list is the single free block `(0,3)`, but `getMemoryLimit` returns 2^31, not
the byte size `wordSize * 3 = 6442450944` of the block: the product, which
`initialize` computes in 64 bits for `new`, is cut to the `unsigned` that
`getMemoryLimit` returns. -/
theorem getMemoryLimit_is_reduced_to_32_bits :
    managerWide.memory = [⟨0, 3, false⟩]
    ∧ managerWide.getMemoryLimit = 2147483648
    ∧ managerWide.getMemoryLimit ≠ managerWide.wordSize * 3 := by
  decide

/-- What `initialize` does establish. For every capacity of at most 65535 words
and every prior state, after `initialize` the block list is exactly one free
block with offset 0 and length the capacity; `getMemoryLimit` returns the low 32
bits of `wordSize * capacity`, which is the byte size of the block only while
that product is below 2^32. -/
theorem initialize_resets (m : MemoryManager) (capacity arena : Nat)
    (hcap : capacity ≤ 65535) :
    ( MemoryManager.initialize m capacity arena).memory = [⟨0, capacity, false⟩]
    ∧ ( MemoryManager.initialize m capacity arena).getMemoryLimit
        = (m.wordSize * capacity) % 4294967296
    ∧ (m.wordSize * capacity < 4294967296 →
        ( MemoryManager.initialize m capacity arena).getMemoryLimit = m.wordSize * capacity) := by
  have hlimit : ( MemoryManager.initialize m capacity arena).getMemoryLimit
      = (m.wordSize * capacity) % 4294967296 := by
    simp only [ MemoryManager.initialize, MemoryManager.shutdown, if_pos hcap,
      MemoryManager.getMemoryLimit, toUnsigned]
    omega
  refine ⟨?_, hlimit, ?_⟩
  · simp [ MemoryManager.initialize, MemoryManager.shutdown, hcap]
  · intro h
    rw [hlimit, Nat.mod_eq_of_lt h]

/-- An instance of `initialize_resets`: re-initialising, with 20 words, the
manager whose block list is `(0,4,free)`, `(4,16,allocated)`. -/
theorem initialize_resets_witness :
    ( MemoryManager.initialize manager20hole 20 8192).memory = [⟨0, 20, false⟩]
    ∧ ( MemoryManager.initialize manager20hole 20 8192).getMemoryLimit = 20 :=
  ⟨(initialize_resets manager20hole 20 8192 (by decide)).1,
   (initialize_resets manager20hole 20 8192 (by decide)).2.2 (by decide)⟩

/-- C17 (counterexample). `initialize(65536)` on an initialised manager returns
like any other call; what it leaves is the manager shut down, with an empty
block list and a null arena. Nothing tells the caller that the capacity was
refused. -/
theorem initialize_oversized_returns_silently :
    MemoryManager.initialize manager20 65536 8192 = manager20.shutdown
    ∧ ( MemoryManager.initialize manager20 65536 8192).memory = []
    ∧ ( MemoryManager.initialize manager20 65536 8192).ptr = nullptr :=
  ⟨rfl, rfl, rfl⟩

/-- C17 (amended). For every capacity above 65535 words, `initialize` does what
`shutdown` does and nothing else: it returns with the block list empty and the
arena pointer null, and reports nothing to its caller. -/
theorem initialize_oversized_is_shutdown (m : MemoryManager) (capacity arena : Nat)
    (hcap : 65535 < capacity) :
    MemoryManager.initialize m capacity arena = m.shutdown := by
  simp only [ MemoryManager.initialize, if_neg (by omega : ¬ capacity ≤ 65535)]

/-- Witness of C17 (amended): `initialize(70000)`. -/
theorem initialize_oversized_is_shutdown_witness :
    MemoryManager.initialize manager20 70000 8192 = manager20.shutdown :=
  initialize_oversized_is_shutdown manager20 70000 8192 (by decide)

/-! ## More behaviour at concrete inputs -/

/-- C18 (failing input). With word size 4, after `initialize(20)` and
`a = allocate(80)` the arena is the single allocated block `(0,20)`; `free(a)`
finds it at position 0, the last position, and reads the block at position 1,
which does not exist: the call has no defined result. -/
theorem free_reads_past_the_only_block :
    outcome (manager20w4.allocate 80) = some (4096, [⟨0, 20, true⟩])
    ∧ ((manager20w4.allocate 80).bind (fun r => r.2.free r.1)).map (fun m => m.memory)
        = none := by
  decide

/-- C19 (failing input). With word size 1, after `initialize(20)` and
`allocate(0)`, two calls `allocate(4)` in a row both return the arena base: the
same four words `[0, 4)` are handed out twice. -/
theorem same_address_allocated_twice :
    outcome ((manager20.allocate 0).bind (fun r => r.2.allocate 4))
      = some (4096, [⟨0, 4, true⟩, ⟨4, 18446744073709551612, true⟩, ⟨0, 20, false⟩])
    ∧ outcome (((manager20.allocate 0).bind (fun r => r.2.allocate 4)).bind
        (fun r => r.2.allocate 4))
      = some (4096, [⟨0, 4, true⟩, ⟨4, 18446744073709551612, true⟩, ⟨0, 20, false⟩]) := by
  decide

/-- A single request of 2^31 words on the arena of 20 words is answered with the
arena base: the words `[0, 2^31)` it stands for do not lie inside `[0, 20)`. -/
theorem oversized_block_outside_arena :
    outcome (manager20.allocate 2147483648)
      = some (4096, [⟨0, 2147483648, true⟩, ⟨-2147483648, 18446744071562067988, false⟩]) := by
  decide

/-! ## free on an address that is not that of an allocated block -/

/-- C11 (counterexample). After `initialize(20)`, `a = allocate(4)`,
`b = allocate(16)` and `free(a)`, the offset of `a` is that of the hole `(0,4)`.
A second `free(a)` returns like a valid call, with the block list as it was:
no failure is signalled. -/
theorem free_of_hole_returns_normally :
    (((manager20.allocate 4).bind (fun r => r.2.allocate 16)).bind
        (fun r => r.2.free 4096)).map (fun m => m.memory)
      = some [⟨0, 4, false⟩, ⟨4, 16, true⟩]
    ∧ ((((manager20.allocate 4).bind (fun r => r.2.allocate 16)).bind
        (fun r => r.2.free 4096)).bind (fun m => m.free 4096)).map (fun m => m.memory)
      = some [⟨0, 4, false⟩, ⟨4, 16, true⟩] := by
  decide

/-- C11 (amended). `free` does not check the address and signals nothing. On a
well-formed block list, for an address whose computed offset is the offset of a
hole that has a successor, `free` returns and the manager after the call equals
the manager before it. -/
theorem free_of_hole_unchanged (m : MemoryManager) (capacity address : Nat)
    (pre post : List Block) (b next : Block)
    (hws : 0 < m.wordSize)
    (hwf : WellFormed capacity m.memory)
    (hmem : m.memory = pre ++ b :: next :: post)
    (hfree : b.allocated = false)
    (haddr : toInt (Int.tdiv ((address : Int) - m.ptr) m.wordSize) = b.offset) :
    m.free address = some m := by
  rw [free_coalesces m capacity address pre post b next hws hwf hmem haddr]
  have hadj := hwf.2.1
  rw [hmem] at hadj
  have hprev := last_before_hole_allocated hadj hfree
  have hnext := first_after_hole_allocated hadj hfree
  rw [coalesce_of_allocated_before _ _ _ hprev]
  simp only [hnext, if_true]
  have hb : (⟨b.offset, b.length, false⟩ : Block) = b := by
    cases b; simp only at hfree; simp [hfree]
  rw [hb, ← hmem]

/-- Witness of C11 (amended): freeing the address of the hole `(0,4)` in the
list `(0,4,free)`, `(4,16,allocated)`. -/
theorem free_of_hole_unchanged_witness :
    manager20hole.free 4096 = some manager20hole :=
  free_of_hole_unchanged manager20hole 20 4096 [] [] ⟨0, 4, false⟩ ⟨4, 16, true⟩
    (by decide) (by decide) rfl rfl (by decide)

/-! ## The hole list -/

/-- C12 (counterexample). A free block of 70000 words is listed with length
`70000 mod 65536 = 4464`; and after `initialize(20)` and `allocate(2^31)` with
word size 1 the only free block, `(-2^31, 2^64 - 2^31 + 20)`, is listed as
`(0, 20)`. -/
theorem getList_truncates_to_16_bits :
    managerLong.getList = some [1, 0, 4464]
    ∧ holeListSpec managerLong.memory = [1, 0, 70000]
    ∧ ((manager20.allocate 2147483648).map (fun r => (r.2.memory, r.2.getList)))
        = some ([⟨0, 2147483648, true⟩, ⟨-2147483648, 18446744071562067988, false⟩],
                some [1, 0, 20]) := by
  decide

theorem flatMap_map_natCast (holes : List Block) :
    (holes.flatMap (fun block => [block.offset.toNat, block.length])).map (fun n : Nat => (n : Int))
      = holes.flatMap (fun block => [((block.offset.toNat : Nat) : Int), (block.length : Int)]) := by
  induction holes with
  | nil => rfl
  | cons b bs ih => simp [List.flatMap_cons, ih]

/-- C12 (amended). `getList` returns null exactly when the block list is empty.
Otherwise, when the free blocks fit the 16-bit fields (fewer than 65536 of
them, offsets and lengths below 65536, as on every well-formed list), it
returns the sequence `[n, o1, l1, ..., on, ln]` of the offsets and lengths of
exactly the free blocks, in list order, with `n` their number; a non-empty list
with no free block yields `[0]`. -/
theorem getList_spec (m : MemoryManager) (hfits : FitsHoleList m.memory) :
    (m.getList = none ↔ m.memory = [])
    ∧ (m.memory ≠ [] →
        m.getList.map (fun arr => arr.map (fun n : Nat => (n : Int)))
          = some (holeListSpec m.memory))
    ∧ (m.memory ≠ [] → (∀ b ∈ m.memory, b.allocated = true) → m.getList = some [0]) := by
  have hnone : m.getList = none ↔ m.memory = [] := by
    unfold MemoryManager.getList
    cases hm : m.memory with
    | nil => simp
    | cons a t => simp
  have hexact : m.memory ≠ [] →
      m.getList = some ((m.memory.filter (fun block => !block.allocated)).length ::
        (m.memory.filter (fun block => !block.allocated)).flatMap
          (fun block => [block.offset.toNat, block.length])) := by
    intro hne
    have hempty : m.memory.isEmpty = false := by
      cases hm : m.memory with
      | nil => exact absurd hm hne
      | cons _ _ => rfl
    unfold MemoryManager.getList
    simp only [hempty, Bool.false_eq_true, if_false, Option.some.injEq, List.cons.injEq]
    constructor
    · have := hfits.1
      unfold toUInt16; omega
    · apply List.flatMap_congr
      intro b hb
      simp only [List.mem_filter, Bool.not_eq_true'] at hb
      obtain ⟨h0, h1, h2⟩ := hfits.2 b hb.1 hb.2
      have e1 : toUInt16 b.offset = b.offset.toNat := by unfold toUInt16; omega
      have e2 : toUInt16 (b.length : Int) = b.length := by unfold toUInt16; omega
      rw [e1, e2]
  refine ⟨hnone, ?_, ?_⟩
  · intro hne
    rw [hexact hne]
    simp only [Option.map_some', List.map_cons, holeListSpec, Option.some.injEq,
      List.cons.injEq, true_and]
    rw [flatMap_map_natCast]
    apply List.flatMap_congr
    intro b hb
    simp only [List.mem_filter, Bool.not_eq_true'] at hb
    obtain ⟨h0, _, _⟩ := hfits.2 b hb.1 hb.2
    rw [Int.toNat_of_nonneg h0]
  · intro hne hall
    rw [hexact hne]
    have : m.memory.filter (fun block => !block.allocated) = [] := by
      rw [List.filter_eq_nil_iff]
      intro b hb
      simp [hall b hb]
    rw [this]
    rfl

/-- Witness of C12 (amended): the hole list of `(0,4,allocated)`, `(4,16,free)`. -/
theorem getList_spec_witness :
    manager20after4.getList.map (fun arr => arr.map (fun n : Nat => (n : Int)))
      = some [1, 4, 16] :=
  (getList_spec manager20after4 (by decide)).2.1 (by decide)

/-- Every well-formed list fits the fields of the hole list. -/
theorem coversFrom_length_le (l : List Block) :
    ∀ (start stop : Int), coversFrom start l stop → (∀ b ∈ l, 0 < b.length) →
      start + (l.length : Int) ≤ stop := by
  induction l with
  | nil => intro s e h _; simp only [coversFrom] at h; simp; omega
  | cons a t ih =>
    intro s e h hpos
    simp only [coversFrom] at h
    have := ih _ _ h.2 (fun x hx => hpos x (List.mem_cons_of_mem _ hx))
    have ha := hpos a (by simp)
    simp only [List.length_cons]
    push_cast
    omega

theorem wellFormed_fitsHoleList {capacity : Nat} {memory : List Block}
    (hwf : WellFormed capacity memory) : FitsHoleList memory := by
  constructor
  · have h1 := coversFrom_length_le _ _ _ hwf.1.2 hwf.2.2.1
    have h2 := List.length_filter_le (fun block : Block => !block.allocated) memory
    have h3 := hwf.2.2.2
    omega
  · intro b hb _
    obtain ⟨h0, h1, h2, h3⟩ := wellFormed_block_bounds hwf hb
    omega

/-! ## The text dump against its reference -/

/-- The text that the dump loop appends for a list of `(offset, length)` pairs. -/
theorem dumpLoop_eq (count : Nat) (hs : List (Nat × Nat)) :
    ∀ (pre : List Nat) (output : String),
      (pre ++ holePairs hs)[0]? = some count →
      pre.length + 2 * hs.length = 2 * count + 1 →
      dumpLoop (pre ++ holePairs hs) hs.length pre.length output
        = some (output ++ joinWithDash
            (hs.map (fun h => "[" ++ toString h.1 ++ ", " ++ toString h.2 ++ "]"))) := by
  induction hs with
  | nil =>
    intro pre output _ _
    simp [dumpLoop, joinWithDash]
  | cons h r ih =>
    intro pre output h0 hlen
    have hstep : pre ++ holePairs (h :: r) = (pre ++ [h.1, h.2]) ++ holePairs r := by
      simp [holePairs]
    have hi : (pre ++ holePairs (h :: r))[pre.length]? = some h.1 := by
      rw [List.getElem?_append_right (Nat.le_refl _)]; simp [holePairs]
    have hi1 : (pre ++ holePairs (h :: r))[pre.length + 1]? = some h.2 := by
      rw [List.getElem?_append_right (Nat.le_add_right _ _)]; simp [holePairs]
    have hlen' : pre.length + 2 = (pre ++ [h.1, h.2]).length := by simp
    simp only [List.length_cons, dumpLoop, hi, hi1, h0]
    cases r with
    | nil =>
      simp only [List.length_nil, List.length_cons] at hlen
      rw [if_pos (by omega)]
      simp [dumpLoop, joinWithDash, String.append_assoc]
    | cons h' r' =>
      simp only [List.length_cons] at hlen
      rw [if_neg (by omega)]
      rw [hstep, hlen']
      rw [ih (pre ++ [h.1, h.2]) _ (by rw [← hstep]; exact h0)
        (by simp only [List.length_append, List.length_cons, List.length_nil]; omega)]
      have hsep : "] - " = "]" ++ " - " := by decide
      simp only [List.map_cons, joinWithDash, hsep, String.append_assoc]

theorem toString_int_of_nonneg {x : Int} (h : 0 ≤ x) : toString x = toString x.toNat := by
  obtain ⟨n, rfl⟩ := Int.eq_ofNat_of_zero_le h
  rfl

/-- C15 (counterexample). Two managers reached through the interface on which
the text built is not the free blocks in ascending offset order.
After `initialize(20)`, `allocate(0)`, `b = allocate(8)`, `free(b)`,
`allocate(3)` the block list is `(0,3,allocated)`, `(3,5,free)`,
`(8,2^64-8,allocated)`, `(0,20,free)`; its free blocks fit the 16-bit fields,
and the text is `"[3, 5] - [0, 20]"`, in list order, not
`"[0, 20] - [3, 5]"`.
After `initialize(20)`, `allocate(4294967296)` the only free block is
`(0, 2^64 - 2^32 + 20)`, and the text is `"[0, 20]"`: the length passes through
the 16-bit hole list. -/
theorem dump_differs_from_dumpSpec :
    manager20shuffled.map (fun m => m.memory)
        = some [⟨0, 3, true⟩, ⟨3, 5, false⟩, ⟨8, 18446744073709551608, true⟩, ⟨0, 20, false⟩]
    ∧ manager20shuffled.map (fun m => decide (FitsHoleList m.memory)) = some true
    ∧ manager20shuffled.bind (fun m => m.dumpMemoryMap) = some "[3, 5] - [0, 20]"
    ∧ manager20shuffled.map (fun m => dumpSpec m.memory) = some "[0, 20] - [3, 5]"
    ∧ (manager20.allocate 4294967296).map (fun r => r.2.memory)
        = some [⟨0, 4294967296, true⟩, ⟨0, 18446744069414584340, false⟩]
    ∧ (manager20.allocate 4294967296).bind (fun r => r.2.dumpMemoryMap) = some "[0, 20]"
    ∧ (manager20.allocate 4294967296).map (fun r => dumpSpec r.2.memory)
        = some "[0, 18446744069414584340]" := by
  decide

/-- The text that `dumpMemoryMap` builds is the free blocks in list order,
whenever they fit the 16-bit fields of the hole list. -/
theorem dumpMemoryMap_eq_listOrder (m : MemoryManager) (hfits : FitsHoleList m.memory) :
    m.dumpMemoryMap = some (joinWithDash
      ((m.memory.filter (fun block => !block.allocated)).map
        (fun block => renderHole block.offset block.length))) := by
  by_cases hne : m.memory = []
  · simp [MemoryManager.dumpMemoryMap, MemoryManager.getList, hne, joinWithDash]
  · have hcount : toUInt16 ((snapshotHoles m.memory).length : Int)
        = (snapshotHoles m.memory).length := by
      have := hfits.1
      simp only [snapshotHoles, List.length_map]
      unfold toUInt16; omega
    unfold MemoryManager.dumpMemoryMap
    rw [getList_eq m hne, hcount]
    simp only [List.getElem?_cons_zero]
    have h := dumpLoop_eq (snapshotHoles m.memory).length (snapshotHoles m.memory)
      [(snapshotHoles m.memory).length] "" (by simp) (by simp; omega)
    simp only [List.singleton_append, List.length_singleton, String.empty_append] at h
    rw [h]
    simp only [snapshotHoles, List.map_map, Option.some.injEq]
    congr 1
    apply List.map_congr_left
    intro b hb
    simp only [List.mem_filter, Bool.not_eq_true'] at hb
    obtain ⟨h0, h1, h2⟩ := hfits.2 b hb.1 hb.2
    have e1 : toUInt16 b.offset = b.offset.toNat := by unfold toUInt16; omega
    have e2 : toUInt16 (b.length : Int) = b.length := by unfold toUInt16; omega
    simp only [Function.comp_apply, e1, e2, renderHole, toString_int_of_nonneg h0]

/-- In a strictly ascending list every block has a smaller offset than each
block after it. -/
theorem strictlyAscending_pairwise (l : List Block) :
    StrictlyAscending l → l.Pairwise (fun a b => a.offset < b.offset) := by
  induction l with
  | nil => intro _; exact List.Pairwise.nil
  | cons a t ih =>
    intro h
    cases t with
    | nil => exact List.pairwise_singleton _ _
    | cons b rest =>
      obtain ⟨hab, hrest⟩ := h
      have hp := ih hrest
      refine List.Pairwise.cons ?_ hp
      intro x hx
      rcases List.mem_cons.1 hx with rfl | hx
      · exact hab
      · exact lt_trans hab (List.rel_of_pairwise_cons hp hx)

/-- The free blocks of a strictly ascending list are strictly ascending. -/
theorem strictlyAscending_filter_free (l : List Block) :
    StrictlyAscending l → StrictlyAscending (l.filter (fun block => !block.allocated)) := by
  intro h
  have hp := (strictlyAscending_pairwise l h).filter (fun block => !block.allocated)
  generalize l.filter (fun block => !block.allocated) = f at hp
  induction f with
  | nil => trivial
  | cons a t ih =>
    cases t with
    | nil => trivial
    | cons b rest =>
      exact ⟨List.rel_of_pairwise_cons hp (List.mem_cons_self _ _),
        ih (List.Pairwise.of_cons hp)⟩

/-- On a well-formed list the free blocks stand in strictly ascending offset
order. -/
theorem wellFormed_holes_ascending {capacity : Nat} {memory : List Block}
    (hwf : WellFormed capacity memory) :
    StrictlyAscending (memory.filter (fun block => !block.allocated)) :=
  strictlyAscending_filter_free memory (wellFormed_strictlyAscending hwf)

/-- C15 (amended). For every block list whose free blocks stand in strictly
ascending offset order and fit the 16-bit fields of the hole list (fewer than
65536 of them, offsets and lengths below 65536), as on every well-formed list,
the string that `dumpMemoryMap` builds is the free blocks in ascending offset
order, each rendered as `[offset, length]` in decimal, joined by `" - "` with no
trailing separator; and for every block list with no free block, the empty one
included, it is the empty string. -/
theorem dumpMemoryMap_eq_dumpSpec (m : MemoryManager) :
    (StrictlyAscending (m.memory.filter (fun block => !block.allocated)) →
      FitsHoleList m.memory → m.dumpMemoryMap = some (dumpSpec m.memory))
    ∧ ((∀ b ∈ m.memory, b.allocated = true) → m.dumpMemoryMap = some "") := by
  constructor
  · intro hasc hfits
    rw [dumpMemoryMap_eq_listOrder m hfits]
    have hsorted : (m.memory.filter (fun block => !block.allocated)).Sorted
        (fun a b : Block => a.offset ≤ b.offset) :=
      (strictlyAscending_pairwise _ hasc).imp (fun h => le_of_lt h)
    simp only [dumpSpec, hsorted.insertionSort_eq]
  · intro hall
    have hnil : m.memory.filter (fun block => !block.allocated) = [] := by
      rw [List.filter_eq_nil_iff]
      intro b hb
      simp [hall b hb]
    have hfits : FitsHoleList m.memory := by
      refine ⟨by rw [hnil]; decide, ?_⟩
      intro b hb hfree
      rw [hall b hb] at hfree
      cases hfree
    rw [dumpMemoryMap_eq_listOrder m hfits, hnil]
    rfl

/-- Witness of C15 (amended): blocks `(0,10,free)`, `(10,2,allocated)`,
`(12,6,free)` give `"[0, 10] - [12, 6]"`. -/
theorem dumpMemoryMap_eq_dumpSpec_witness :
    StrictlyAscending (manager18.memory.filter (fun block => !block.allocated))
    ∧ FitsHoleList manager18.memory
    ∧ manager18.dumpMemoryMap = some "[0, 10] - [12, 6]" :=
  ⟨by decide, by decide, (dumpMemoryMap_eq_dumpSpec manager18).1 (by decide) (by decide)⟩

/-! ## The bitmap against its reference -/

theorem mapM_option_eq_some_map {α β : Type} (f : α → Option β) (g : α → β) (l : List α)
    (h : ∀ x ∈ l, f x = some (g x)) : l.mapM f = some (l.map g) := by
  induction l with
  | nil => rfl
  | cons a t ih =>
    rw [List.mapM_cons, h a (List.mem_cons_self _ _),
      ih (fun x hx => h x (List.mem_cons_of_mem _ hx))]
    rfl

theorem stoiBinary_append (l : List Bool) (c : Bool) :
    stoiBinary (l ++ [c]) = 2 * stoiBinary l + (if c then 1 else 0) := by
  simp [stoiBinary, List.foldl_append]

theorem testBit_stoiBinary (l : List Bool) :
    ∀ k, (stoiBinary l).testBit k = l.reverse.getD k false := by
  induction l using List.reverseRecOn with
  | nil => intro k; simp [stoiBinary]
  | append_singleton init c ih =>
    intro k
    rw [stoiBinary_append, List.reverse_append]
    cases k with
    | zero =>
      cases c
      · simp [Nat.testBit_zero]
      · simp [Nat.testBit_zero]; omega
    | succ k =>
      have h2 : (2 * stoiBinary init + (if c then 1 else 0)) / 2 = stoiBinary init := by
        cases c
        · simp
        · simp; omega
      rw [Nat.testBit_succ, h2, ih k]
      simp

theorem hexBitMapSize_bytes (v : Nat) (hv : v < 65536) :
    stoiHex (((hexBitMapSize v).drop 2).take 2) = v % 256
    ∧ stoiHex ((hexBitMapSize v).take 2) = v / 256 := by
  by_cases h1 : v < 16
  · have e1 : v / 16 = 0 := by omega
    simp [hexBitMapSize, hexDigitsCore, e1, stoiHex]
    omega
  · by_cases h2 : v < 256
    · have e1 : ¬ v / 16 = 0 := by omega
      have e2 : v / 16 / 16 = 0 := by omega
      simp [hexBitMapSize, hexDigitsCore, e1, e2, stoiHex]
      omega
    · by_cases h3 : v < 4096
      · have e1 : ¬ v / 16 = 0 := by omega
        have e2 : ¬ v / 16 / 16 = 0 := by omega
        have e3 : v / 16 / 16 / 16 = 0 := by omega
        simp [hexBitMapSize, hexDigitsCore, e1, e2, e3, stoiHex]
        omega
      · have e1 : ¬ v / 16 = 0 := by omega
        have e2 : ¬ v / 16 / 16 = 0 := by omega
        have e3 : ¬ v / 16 / 16 / 16 = 0 := by omega
        have e4 : v / 16 / 16 / 16 / 16 = 0 := by omega
        simp [hexBitMapSize, hexDigitsCore, e1, e2, e3, e4, stoiHex]
        omega

theorem coversFrom_bits_length (l : List Block) :
    ∀ (start stop : Int), coversFrom start l stop →
      start + ((l.flatMap (fun block => List.replicate block.length block.allocated)).length
        : Int) = stop := by
  induction l with
  | nil => intro s e h; simp only [coversFrom] at h; simp; omega
  | cons a t ih =>
    intro s e h
    simp only [coversFrom] at h
    have := ih _ _ h.2
    simp only [List.flatMap_cons, List.length_append, List.length_replicate]
    push_cast
    omega

theorem coversFrom_exists_block (l : List Block) :
    ∀ (start stop : Int) (w : Nat), coversFrom start l stop → start ≤ (w : Int) →
      (w : Int) < stop → ∃ b ∈ l, b.contains w := by
  induction l with
  | nil => intro s e w h h1 h2; simp only [coversFrom] at h; omega
  | cons a t ih =>
    intro s e w h h1 h2
    simp only [coversFrom] at h
    by_cases hw : (w : Int) < s + (a.length : Int)
    · exact ⟨a, List.mem_cons_self _ _, by unfold Block.contains; omega⟩
    · obtain ⟨b, hb, hc⟩ := ih _ _ w h.2 (by omega) h2
      exact ⟨b, List.mem_cons_of_mem _ hb, hc⟩

theorem coversFrom_bit_of_block (l : List Block) :
    ∀ (k : Nat) (stop : Int) (w : Nat), coversFrom (k : Int) l stop →
      ∀ b ∈ l, b.contains w →
        k ≤ w ∧ (l.flatMap (fun block => List.replicate block.length block.allocated))[w - k]?
          = some b.allocated := by
  induction l with
  | nil => intro _ _ _ _ b hb; simp at hb
  | cons a t ih =>
    intro k e w h b hb hc
    simp only [coversFrom] at h
    obtain ⟨ha, ht⟩ := h
    unfold Block.contains at hc
    rw [List.flatMap_cons]
    by_cases hw : (w : Int) < (k : Int) + (a.length : Int)
    · -- the word lies in the first block, so `b` is that block
      have hba : b = a := by
        rcases List.mem_cons.1 hb with h1 | h1
        · exact h1
        · have := (coversFrom_mem_bounds _ _ _ ht b h1).1
          omega
      subst hba
      refine ⟨by omega, ?_⟩
      rw [List.getElem?_append_left (by simp only [List.length_replicate]; omega)]
      rw [List.getElem?_replicate, if_pos (by omega)]
    · have hbt : b ∈ t := by
        rcases List.mem_cons.1 hb with h1 | h1
        · subst h1; omega
        · exact h1
      have ht' : coversFrom ((k + a.length : Nat) : Int) t e := by
        push_cast; exact ht
      obtain ⟨h1, h2⟩ := ih (k + a.length) e w ht' b hbt (by unfold Block.contains; exact hc)
      refine ⟨by omega, ?_⟩
      rw [List.getElem?_append_right (by simp only [List.length_replicate]; omega)]
      simp only [List.length_replicate]
      have : w - k - a.length = w - (k + a.length) := by omega
      rw [this]
      exact h2

theorem getElem?_eq_some_getD (l : List Bool) (i : Nat) (h : i < l.length) :
    l[i]? = some (l.getD i false) := by
  rw [List.getD_eq_getElem?_getD, List.getElem?_eq_getElem h]
  rfl

theorem reverse_getD (l : List Bool) (i : Nat) (h : i < l.length) :
    l.reverse.getD i false = l.getD (l.length - 1 - i) false := by
  rw [List.getD_eq_getElem?_getD, List.getD_eq_getElem?_getD, List.getElem?_reverse h]

theorem map_range_getD (f : Nat → Bool) (n i : Nat) (h : i < n) :
    ((List.range n).map f).getD i false = f i := by
  rw [List.getD_eq_getElem?_getD, List.getElem?_map, List.getElem?_range h]
  rfl

/-- Bit `k` of the byte that `stoi` reads from eight characters of the reversed
vector is character `7 - k` of the eight. -/
theorem testBit_byte (f : Nat → Bool) (k : Nat) (hk : k < 8) :
    (stoiBinary ((List.range 8).map f)).testBit k = f (7 - k) := by
  rw [testBit_stoiBinary, reverse_getD _ _ (by simp; exact hk)]
  simp only [List.length_map, List.length_range]
  rw [map_range_getD f 8 (8 - 1 - k) (by omega)]

/-- The bytes of `getBitmap`. The list `memory` partitions `[0, sizeInWords)`
and `sizeInWords ≤ 65535`; then the size field is `ceil(sizeInWords / 8)` in two
bytes, low byte first, and the data bytes are read off the reversed vector. -/
theorem getBitmap_eq (m : MemoryManager)
    (hcap : m.sizeInWords ≤ 65535) (hcover : Coverage m.sizeInWords m.memory) :
    m.bitmapBits.length = 8 * ((m.sizeInWords + 7) / 8)
    ∧ m.getBitmap = some (((m.sizeInWords + 7) / 8) % 256 :: ((m.sizeInWords + 7) / 8) / 256 ::
        (((List.range ((m.sizeInWords + 7) / 8)).map
          (fun i => (List.range 8).map (fun j => m.bitmapBits.reverse.getD (j + 8 * i) false))).map
          stoiBinary).reverse) := by
  have hB := coversFrom_bits_length _ _ _ hcover.2
  have hP : m.bitmapBits.length = 8 * ((m.sizeInWords + 7) / 8) := by
    unfold MemoryManager.bitmapBits
    rw [List.length_append, List.length_replicate]
    split <;> omega
  refine ⟨hP, ?_⟩
  have hany : m.memory.any (fun block => decide (2147483647 < block.length)) = false := by
    rw [List.any_eq_false]
    intro b hb
    have := coversFrom_mem_bounds _ _ _ hcover.2 b hb
    simp only [decide_eq_true_eq, not_lt]
    omega
  have hR : m.bitmapBits.reverse.length = 8 * ((m.sizeInWords + 7) / 8) := by
    rw [List.length_reverse, hP]
  have hfloat : toFloat (8 * ((m.sizeInWords + 7) / 8)) = 8 * ((m.sizeInWords + 7) / 8) := by
    unfold toFloat
    rw [if_pos (by omega)]
  have hsize : (8 * ((m.sizeInWords + 7) / 8) + 7) / 8 = (m.sizeInWords + 7) / 8 := by omega
  have hinner : ∀ i ∈ List.range ((m.sizeInWords + 7) / 8),
      (List.range 8).mapM (fun j => m.bitmapBits.reverse[j + 8 * i]?)
        = some ((List.range 8).map (fun j => m.bitmapBits.reverse.getD (j + 8 * i) false)) := by
    intro i hi
    rw [List.mem_range] at hi
    apply mapM_option_eq_some_map
    intro j hj
    rw [List.mem_range] at hj
    exact getElem?_eq_some_getD _ _ (by rw [hR]; omega)
  have houter := mapM_option_eq_some_map _ _ _ hinner
  have hhex := hexBitMapSize_bytes ((m.sizeInWords + 7) / 8) (by omega)
  unfold MemoryManager.getBitmap
  rw [hany]
  simp only [Bool.false_eq_true, if_false, hR, hfloat, hsize]
  rw [if_neg (by omega), houter]
  simp only [hhex.1, hhex.2]

/-- Every bit of the data bytes of `getBitmap` is the character of the vector
`bits` (before the reversal) at the same position. -/
theorem getBitmap_bits (m : MemoryManager)
    (hcap : m.sizeInWords ≤ 65535) (hcover : Coverage m.sizeInWords m.memory) :
    ∃ data, m.getBitmap = some (((m.sizeInWords + 7) / 8) % 256 ::
        ((m.sizeInWords + 7) / 8) / 256 :: data)
      ∧ data.length = (m.sizeInWords + 7) / 8
      ∧ ∀ w, w < 8 * ((m.sizeInWords + 7) / 8) →
          bitOf data w = some (m.bitmapBits.getD w false) := by
  obtain ⟨hP, heq⟩ := getBitmap_eq m hcap hcover
  refine ⟨_, heq, by simp, ?_⟩
  intro w hw
  have hd : w / 8 < (m.sizeInWords + 7) / 8 := by omega
  unfold bitOf
  rw [List.getElem?_reverse (by simp; exact hd)]
  simp only [List.length_map, List.length_range, List.getElem?_map]
  rw [List.getElem?_range (by omega)]
  simp only [Option.map_some', Option.some.injEq]
  rw [testBit_byte _ _ (by omega)]
  rw [reverse_getD _ _ (by rw [hP]; omega), hP]
  congr 1
  omega

theorem bitmapBits_getD (m : MemoryManager) (hcover : Coverage m.sizeInWords m.memory) :
    (∀ w, w < m.sizeInWords → (∃ b ∈ m.memory, b.contains w) ∧
        ∀ b ∈ m.memory, b.contains w → m.bitmapBits.getD w false = b.allocated)
    ∧ (∀ w, m.sizeInWords ≤ w → m.bitmapBits.getD w false = false) := by
  have hB := coversFrom_bits_length _ _ _ hcover.2
  constructor
  · intro w hw
    refine ⟨coversFrom_exists_block _ _ _ w hcover.2 (by omega) (by omega), ?_⟩
    intro b hb hc
    have h := (coversFrom_bit_of_block m.memory 0 _ w (by simpa using hcover.2) b hb hc).2
    unfold MemoryManager.bitmapBits
    rw [List.getD_eq_getElem?_getD, List.getElem?_append_left (by omega)]
    simp only [Nat.sub_zero] at h
    rw [h]
    rfl
  · intro w hw
    unfold MemoryManager.bitmapBits
    rw [List.getD_eq_getElem?_getD, List.getElem?_append_right (by omega),
      List.getElem?_replicate]
    by_cases h : w - (m.memory.flatMap
        (fun block => List.replicate block.length block.allocated)).length
        < (if m.sizeInWords % 8 ≠ 0 then 8 - m.sizeInWords % 8 else 0)
    · rw [if_pos h]; rfl
    · rw [if_neg h]; rfl

/-- C13. For every capacity of at most 65535 words and every block list that
partitions `[0, capacity)`, `getBitmap` returns `n = ceil(capacity / 8)` as two
bytes, `n mod 256` then `n div 256`, followed by exactly `n` data bytes. Bit
`w mod 8` of data byte `w / 8`, bit 0 being the least significant, is the
allocation flag of the block in which word `w < capacity` lies: 1 for an
allocated block, 0 for a free one. Every padding bit, at the positions from
`capacity` on, is 0. -/
theorem getBitmap_spec (m : MemoryManager)
    (hcap : m.sizeInWords ≤ 65535) (hcover : Coverage m.sizeInWords m.memory) :
    ∃ data, m.getBitmap = some (((m.sizeInWords + 7) / 8) % 256 ::
        ((m.sizeInWords + 7) / 8) / 256 :: data)
      ∧ data.length = (m.sizeInWords + 7) / 8
      ∧ (∀ w, w < m.sizeInWords → (∃ b ∈ m.memory, b.contains w) ∧
          ∀ b ∈ m.memory, b.contains w → bitOf data w = some b.allocated)
      ∧ (∀ w, m.sizeInWords ≤ w → w < 8 * ((m.sizeInWords + 7) / 8) →
          bitOf data w = some false) := by
  obtain ⟨data, heq, hlen, hbits⟩ := getBitmap_bits m hcap hcover
  obtain ⟨hin, hpad⟩ := bitmapBits_getD m hcover
  refine ⟨data, heq, hlen, ?_, ?_⟩
  · intro w hw
    refine ⟨(hin w hw).1, ?_⟩
    intro b hb hc
    rw [hbits w (by omega), (hin w hw).2 b hb hc]
  · intro w hw hlt
    rw [hbits w hlt, hpad w hw]

/-- Witness of C13: capacity 10 gives `n = 2`. -/
theorem getBitmap_spec_witness :
    ∃ data, manager10.getBitmap = some (2 :: 0 :: data)
      ∧ data.length = 2
      ∧ (∀ w, w < 10 → (∃ b ∈ manager10.memory, b.contains w) ∧
          ∀ b ∈ manager10.memory, b.contains w → bitOf data w = some b.allocated)
      ∧ (∀ w, 10 ≤ w → w < 16 → bitOf data w = some false) :=
  getBitmap_spec manager10 (by decide) (by decide)

/-- C14 (counterexample). With 16 words of which the first 8 are allocated, the
bitmap is the size field `2, 0` and the data bytes `255, 0`. The last word of
the bit sequence is free, its bit is 0; the most significant bit of the first
data byte is 1 (it is the bit of word 7). -/
theorem first_data_byte_msb_is_not_last_word :
    (manager16.allocate 8).bind (fun r => r.2.getBitmap) = some [2, 0, 255, 0]
    ∧ (manager16.allocate 8).map (fun r => r.2.bitmapBits.getLast?) = some (some false)
    ∧ firstDataByteMsb [2, 0, 255, 0] = some true := by
  decide

/-- C14 (amended). For every initialised manager, with a capacity from 1 to
65535 words and a block list that partitions it, in the output of `getBitmap`
the bit of the last word of the padded bit sequence is the most significant bit
of the last data byte; the most significant bit of the first data byte, the one
after the size field, is the bit at position 7 of the sequence. -/
theorem bitmap_bit_order (m : MemoryManager)
    (hpos : 1 ≤ m.sizeInWords) (hcap : m.sizeInWords ≤ 65535)
    (hcover : Coverage m.sizeInWords m.memory) :
    ∃ bitmap last, m.getBitmap = some bitmap
      ∧ m.bitmapBits.getLast? = some last
      ∧ lastDataByteMsb bitmap = some last
      ∧ firstDataByteMsb bitmap = some (m.bitmapBits.getD 7 false) := by
  obtain ⟨data, heq, hlen, hbits⟩ := getBitmap_bits m hcap hcover
  have hP := (getBitmap_eq m hcap hcover).1
  have hn : 1 ≤ (m.sizeInWords + 7) / 8 := by omega
  refine ⟨_, m.bitmapBits.getD (8 * ((m.sizeInWords + 7) / 8) - 1) false, heq, ?_, ?_, ?_⟩
  · rw [List.getLast?_eq_getElem?, hP, List.getD_eq_getElem?_getD,
      List.getElem?_eq_getElem (by rw [hP]; omega)]
    rfl
  · have h := hbits (8 * ((m.sizeInWords + 7) / 8) - 1) (by omega)
    unfold bitOf at h
    have e1 : (8 * ((m.sizeInWords + 7) / 8) - 1) / 8 = (m.sizeInWords + 7) / 8 - 1 := by omega
    have e2 : (8 * ((m.sizeInWords + 7) / 8) - 1) % 8 = 7 := by omega
    rw [e1, e2] at h
    unfold lastDataByteMsb
    simp only [List.drop_succ_cons, List.drop_zero]
    rw [List.getLast?_eq_getElem?, hlen]
    exact h
  · have h := hbits 7 (by omega)
    unfold bitOf at h
    unfold firstDataByteMsb
    simp only [List.drop_succ_cons, List.drop_zero]
    rw [List.head?_eq_getElem?]
    exact h

/-- Witness of C14 (amended): the manager of 16 words after `allocate(8)`. Its
bitmap is `2, 0, 255, 0`; the last word is free and so is the most significant
bit of the last data byte, while the most significant bit of the first data
byte is 1, the bit of word 7. -/
theorem bitmap_bit_order_witness :
    outcome (manager16.allocate 8) = some (4096, manager16half.memory)
    ∧ manager16half.getBitmap = some [2, 0, 255, 0]
    ∧ manager16half.bitmapBits.getLast? = some false
    ∧ manager16half.bitmapBits.getD 7 false = true
    ∧ lastDataByteMsb [2, 0, 255, 0] = some false
    ∧ firstDataByteMsb [2, 0, 255, 0] = some true
    ∧ ∃ bitmap last, manager16half.getBitmap = some bitmap
      ∧ manager16half.bitmapBits.getLast? = some last
      ∧ lastDataByteMsb bitmap = some last
      ∧ firstDataByteMsb bitmap = some (manager16half.bitmapBits.getD 7 false) :=
  ⟨by decide, by decide, by decide, by decide, by decide, by decide,
   bitmap_bit_order manager16half (by decide) (by decide) (by decide)⟩
